import Mathlib

/-!
Verification of the Yen K-shortest-paths implementation
(`src/k_shortest_paths.py`) against its specification.

The graph data structure and the single-source Dijkstra routine are
external collaborators (networkx); they are modelled from the spec's
contracts (GraphAccess §4.4, ShortestPathOracle §4.5).  The functions
`k_shortest_paths` and `get_path_length` are translated line by line
from the source.

Conventions of the shallow embedding:
* nodes are natural numbers;
* an edge-attribute mapping is an association list `String × ℕ`
  (numeric attribute values; weights are non-negative per the source's
  documented precondition);
* the adjacency of a graph is a function `Node → Node → Option Attr`
  (`none` = no such edge); an undirected graph stores each edge in both
  directions, exactly as networkx does;
* `k` is an integer (Python allows `k ≤ 0`; `range(1, k)` is then empty);
* the two runtime failures the Python code can exhibit — the
  `NetworkXNoPath` raised by the very first Dijkstra call, and the
  potential `IndexError` at `c_path[j + 1]` — are modelled with `Except`.
-/

abbrev Node : Type := ℕ

/-- An edge-attribute mapping, e.g. `[("weight", 3)]`. -/
abbrev Attr : Type := List (String × ℕ)

/-- A recorded removed edge `(u, v, attributes)`, as appended to the
Python list `edges_removed`. -/
abbrev EdgeRec : Type := Node × Node × Attr

/-- A candidate entry of the heap `B`: `(total length, tie-break counter,
path)`, as pushed by `heappush(B, (total_path_length, next(c), total_path))`. -/
abbrev Cand : Type := ℕ × ℕ × List Node

/-- Modelled from the spec: GraphAccess (§4.4), the external networkx
graph.  `directed` is the graph mode, `nodes` the node container, and
`adj u v` the attribute mapping of the edge `(u, v)` (`none` when the
edge is absent).  An undirected networkx graph stores every edge
symmetrically; that invariant is carried as `Graph.WF` below. -/
structure Graph where
  directed : Bool
  nodes : List Node
  adj : Node → Node → Option Attr

namespace Graph

/-- `G.is_directed()`. -/
def is_directed (G : Graph) : Bool := G.directed

/-- `G.has_edge(u, v)`. -/
def hasEdge (G : Graph) (u v : Node) : Bool := (G.adj u v).isSome

/-- `G.edges[u, v]`: the attribute mapping of an edge.  The source only
evaluates it on edges it has just checked to be present, so the `[]`
returned for an absent edge is never observed. -/
def edgeData (G : Graph) (u v : Node) : Attr := (G.adj u v).getD []

/-- `G.remove_edge(u, v)`: in a directed graph removes the directed
edge, in an undirected graph removes the edge in both orientations
(networkx stores undirected edges symmetrically). -/
def removeEdge (G : Graph) (u v : Node) : Graph :=
  { G with adj := fun a b =>
      if (a = u ∧ b = v) ∨ (¬ G.directed ∧ a = v ∧ b = u) then none
      else G.adj a b }

/-- `G.add_edge(u, v, **attrs)` as used by `add_edges_from`: (re)inserts
the edge with the given attribute mapping (both orientations when the
graph is undirected).  The source only re-adds edges it removed, whose
endpoints already belong to the graph. -/
def addEdge (G : Graph) (u v : Node) (d : Attr) : Graph :=
  { G with adj := fun a b =>
      if (a = u ∧ b = v) ∨ (¬ G.directed ∧ a = v ∧ b = u) then some d
      else G.adj a b }

/-- `G.add_edges_from(l)` (line 105). -/
def add_edges_from (G : Graph) (l : List EdgeRec) : Graph :=
  l.foldl (fun g e => g.addEdge e.1 e.2.1 e.2.2) G

/-- `G.successors(node)`: the out-neighbours of `node` (for an
undirected graph this is its neighbour list, by symmetry of `adj`). -/
def successors (G : Graph) (u : Node) : List Node :=
  G.nodes.filter fun v => (G.adj u v).isSome

/-- `G.predecessors(node)`: the in-neighbours of `node`. -/
def predecessors (G : Graph) (u : Node) : List Node :=
  G.nodes.filter fun v => (G.adj v u).isSome

/-- Well-formedness facts guaranteed by the networkx representation:
the node container has no duplicates, every edge endpoint is a node of
the graph, and an undirected graph stores its adjacency symmetrically. -/
def WF (G : Graph) : Prop :=
  G.nodes.Nodup ∧
  (∀ u v : Node, (G.adj u v).isSome → u ∈ G.nodes ∧ v ∈ G.nodes) ∧
  (G.directed = false → ∀ u v : Node, G.adj u v = G.adj v u)

end Graph

/-- The runtime failures the Python source can raise: `NetworkXNoPath`
propagating out of the very first Dijkstra call (line 64), and the
potential `IndexError` of `c_path[j + 1]` (line 79). -/
inductive Err : Type where
  | noPath : Err
  | indexErr : Err
deriving DecidableEq

/-- `get_path_length(G, path, weight)` (lines 121-128): sums
`G.edges[u, v].get(weight, 1)` over consecutive pairs of `path`. -/
def get_path_length (G : Graph) : List Node → String → ℕ
  | [], _ => 0
  | [_], _ => 0
  | u :: v :: rest, w =>
      (((G.adj u v).getD []).lookup w).getD 1 + get_path_length G (v :: rest) w

/-- All loopless paths from `u` to `target` whose steps follow
`G.successors` and avoid `visited`, found by depth-first search with
enough fuel to cover every simple path. -/
def pathsFromTo (G : Graph) (target : Node) : ℕ → Node → List Node → List (List Node)
  | fuel, u, visited =>
    if u = target then [[u]]
    else
      match fuel with
      | 0 => []
      | f + 1 =>
          ((G.successors u).filter fun v => !((u :: visited).contains v)).flatMap
            fun v => (pathsFromTo G target f v (u :: visited)).map (u :: ·)

/-- Every loopless path from `s` to `t` in `G`. -/
def simplePaths (G : Graph) (s t : Node) : List (List Node) :=
  pathsFromTo G t (G.nodes.length + 1) s []

/-- Left-to-right scan keeping the first path of minimal
`get_path_length` (earlier elements win ties, making the choice
deterministic). -/
def pickBestFrom (G : Graph) (w : String) :
    Option (ℕ × List Node) → List (List Node) → Option (ℕ × List Node)
  | best, [] => best
  | none, p :: rest => pickBestFrom G w (some (get_path_length G p w, p)) rest
  | some (bl, bp), p :: rest =>
      if get_path_length G p w < bl then pickBestFrom G w (some (get_path_length G p w, p)) rest
      else pickBestFrom G w (some (bl, bp)) rest

/-- First path of minimal `get_path_length` in a list. -/
def pickBest (G : Graph) (w : String) (l : List (List Node)) : Option (ℕ × List Node) :=
  pickBestFrom G w none l

/-- Modelled from the spec: ShortestPathOracle (§4.5), the external
`nx.single_source_dijkstra(G, s, t, weight=w)`.  Returns the total
length and node sequence of a shortest loopless path from `s` to `t`
under the current graph state, deterministically (ties broken by the
enumeration order), or `none` when `s` and `t` are disconnected
(`NetworkXNoPath`). -/
def single_source_dijkstra (G : Graph) (s t : Node) (w : String) : Option (ℕ × List Node) :=
  pickBest G w (simplePaths G s t)

/-- Lines 76-83: one step of `for c_path in paths:` — if `c_path` shares
`root_path` as a prefix, remove the edge from its node at index `j` to
its node at index `j + 1` (if present), recording it.  `c_path[j + 1]`
can be out of bounds, which is the modelled `IndexError`. -/
def sharedStep (j : ℕ) (root_path : List Node) (st : Graph × List EdgeRec)
    (c_path : List Node) : Except Err (Graph × List EdgeRec) :=
  if c_path.length > j ∧ root_path = c_path.take (j + 1) then
    match c_path[j]?, c_path[j + 1]? with
    | some u, some v =>
        if st.1.hasEdge u v then
          .ok (st.1.removeEdge u v, st.2 ++ [(u, v, st.1.edgeData u v)])
        else .ok st
    | _, _ => .error .indexErr
  else .ok st

/-- Lines 88-91: `for v in list(G.successors(node)):` over the snapshot
`vs`, removing the edge `(node, v)` and recording its attributes (read
from the current graph just before the removal). -/
def removeOutList (node : Node) : List Node → Graph × List EdgeRec → Graph × List EdgeRec
  | [], st => st
  | v :: vs, st =>
      removeOutList node vs (st.1.removeEdge node v, st.2 ++ [(node, v, st.1.edgeData node v)])

/-- Lines 95-98: `for u in list(G.predecessors(node)):` over the
snapshot `us`, removing the edge `(u, node)` and recording it. -/
def removeInList (node : Node) : List Node → Graph × List EdgeRec → Graph × List EdgeRec
  | [], st => st
  | u :: us, st =>
      removeInList node us (st.1.removeEdge u node, st.2 ++ [(u, node, st.1.edgeData u node)])

/-- Lines 87-91: remove all out-edges of `node`, iterating over a
snapshot of `G.successors(node)` (the Python `list(...)`). -/
def removeOutEdges (G : Graph) (removed : List EdgeRec) (node : Node) :
    Graph × List EdgeRec :=
  removeOutList node (G.successors node) (G, removed)

/-- Lines 93-98: when the graph is directed, also remove all in-edges
of `node`, iterating over a snapshot of `G.predecessors(node)`. -/
def removeInEdges (G : Graph) (removed : List EdgeRec) (node : Node) :
    Graph × List EdgeRec :=
  removeInList node (G.predecessors node) (G, removed)

/-- Lines 85-98 for a single interior root node. -/
def removeNodeEdges (st : Graph × List EdgeRec) (node : Node) : Graph × List EdgeRec :=
  let st1 := removeOutEdges st.1 st.2 node
  if st1.1.is_directed then removeInEdges st1.1 st1.2 node else st1

/-- Lines 71-109: the body of `for j in range(len(paths[-1]) - 1):` for
one value of `j`, threading the graph, the tie-break counter and the
heap `B`.  `pathsAcc` is the accepted-path list `paths` (unchanged
within the inner loop), `lastPath` is `paths[-1]`. -/
def spurIteration (w : String) (target : Node) (pathsAcc : List (List Node))
    (lastPath : List Node) : Graph × ℕ × List Cand → ℕ → Except Err (Graph × ℕ × List Cand)
  | (G, cnt, B), j => do
    let spur_node := lastPath.getD j 0
    let root_path := lastPath.take (j + 1)
    let (G1, removed1) ← pathsAcc.foldlM (sharedStep j root_path) (G, [])
    let (G2, removed2) := root_path.dropLast.foldl removeNodeEdges (G1, removed1)
    let (spur_path_length, spur_path) :=
      match single_source_dijkstra G2 spur_node target w with
      | some r => r
      | none => (0, [])
    let G3 := G2.add_edges_from removed2
    if spur_path.isEmpty then
      .ok (G3, cnt, B)
    else
      let total_path := root_path.dropLast ++ spur_path
      let total_path_length := get_path_length G3 root_path w + spur_path_length
      .ok (G3, cnt + 1, B ++ [(total_path_length, cnt, total_path)])

/-- `heappop(B)` on the heap of `(length, count, path)` triples: removes
and returns the lexicographically least entry.  Tie-break counters are
unique, so the path component never takes part in the comparison. -/
def popSmallest : List Cand → Option (Cand × List Cand)
  | [] => none
  | x :: xs =>
      match popSmallest xs with
      | none => some (x, [])
      | some (m, rest) =>
          if m.1 < x.1 ∨ (m.1 = x.1 ∧ m.2.1 < x.2.1) then some (m, x :: rest)
          else some (x, xs)

/-- The running state of the outer loop: the graph, the accepted
`lengths` and `paths`, the tie-break counter `c` and the heap `B`. -/
structure YState where
  G : Graph
  lengths : List ℕ
  paths : List (List Node)
  cnt : ℕ
  B : List Cand

/-- Lines 70-116: `for i in range(1, k):` with `fuel` remaining
iterations.  Each iteration scans every spur node of `paths[-1]`, then
pops the best candidate from `B`, or breaks when `B` is exhausted. -/
def yenLoop (w : String) (target : Node) : ℕ → YState → Except Err YState
  | 0, st => .ok st
  | fuel + 1, st => do
      let last := st.paths.getLastD []
      let (G, cnt, B) ←
        (List.range (last.length - 1)).foldlM
          (spurIteration w target st.paths last) (st.G, st.cnt, st.B)
      match popSmallest B with
      | none => .ok ⟨G, st.lengths, st.paths, cnt, B⟩
      | some ((l, _, p), B2) =>
          yenLoop w target fuel ⟨G, st.lengths ++ [l], st.paths ++ [p], cnt, B2⟩

/-- `k_shortest_paths(G, source, target, k, weight)` (lines 18-118),
returning the pair `(lengths, paths)` together with the final state of
the (mutated-then-restored) graph, or the raised error. -/
def k_shortest_paths (G : Graph) (source target : Node) (k : ℤ) (w : String) :
    Except Err ((List ℕ × List (List Node)) × Graph) :=
  if source = target then .ok (([0], [[source]]), G)
  else
    match single_source_dijkstra G source target w with
    | none => .error .noPath
    | some (length, path) => do
        let st ← yenLoop w target (k - 1).toNat ⟨G, [length], [path], 0, []⟩
        .ok ((st.lengths, st.paths), st.G)

/-- The `(lengths, paths)` part of a normal return, used to state
decidable facts about concrete runs. -/
def kspLists (G : Graph) (source target : Node) (k : ℤ) (w : String) :
    Option (List ℕ × List (List Node)) :=
  match k_shortest_paths G source target k w with
  | .ok (r, _) => some r
  | .error _ => none

/-- A walk from `s` to `t`: a nonempty node sequence starting at `s`,
ending at `t`, each consecutive pair linked by an edge of `G` (in the
successor sense).  Node repetitions are allowed. -/
def IsWalk (G : Graph) (s t : Node) (p : List Node) : Prop :=
  p.head? = some s ∧ p.getLast? = some t ∧
    List.Chain' (fun u v => v ∈ G.successors u) p

/-- A loopless (simple) path from `s` to `t` in `G`. -/
def GoodPath (G : Graph) (s t : Node) (p : List Node) : Prop :=
  IsWalk G s t p ∧ p.Nodup

/-- `s` and `t` are connected in `G`: some walk joins them. -/
def Connected (G : Graph) (s t : Node) : Prop := ∃ p, IsWalk G s t p

/-- The restoration invariant threaded through one spur-node iteration:
re-inserting the recorded edges into the current (edge-stripped) graph
`Gc` gives back the original graph `G0`; every recorded edge is
currently absent from `Gc` (in both orientations when undirected); the
node set and mode are untouched; and an undirected graph stays
symmetric. -/
def restores (G0 Gc : Graph) (rem : List EdgeRec) : Prop :=
  Gc.add_edges_from rem = G0 ∧
  (∀ e ∈ rem, Gc.adj e.1 e.2.1 = none ∧
    (Gc.directed = false → Gc.adj e.2.1 e.1 = none)) ∧
  Gc.directed = G0.directed ∧ Gc.nodes = G0.nodes ∧
  (Gc.directed = false → ∀ a b : Node, Gc.adj a b = Gc.adj b a)

/-- The complete graph on nodes `0..4` with unit weights (the spec's
§8 example, `nx.complete_graph(5)`). -/
def K5 : Graph :=
  { directed := false
    nodes := [0, 1, 2, 3, 4]
    adj := fun u v => if u ≠ v ∧ u < 5 ∧ v < 5 then some [] else none }

/-- A two-node undirected graph with the single edge `0 — 1` (no weight
attribute, so its weight defaults to 1). -/
def P2 : Graph :=
  { directed := false
    nodes := [0, 1]
    adj := fun u v => if (u = 0 ∧ v = 1) ∨ (u = 1 ∧ v = 0) then some [] else none }

/-- A two-node graph with no edges: `0` and `1` are disconnected. -/
def D2 : Graph :=
  { directed := false
    nodes := [0, 1]
    adj := fun _ _ => none }

/-- The triangle graph on nodes `0, 1, 2` with unit weights. -/
def T3 : Graph :=
  { directed := false
    nodes := [0, 1, 2]
    adj := fun u v =>
      if (u = 0 ∧ v = 1) ∨ (u = 1 ∧ v = 0) ∨ (u = 0 ∧ v = 2) ∨ (u = 2 ∧ v = 0) ∨
          (u = 1 ∧ v = 2) ∨ (u = 2 ∧ v = 1) then some [] else none }

/-- A well-formed heap entry: its path is a loopless `s`–`t` path of the
input graph and its recorded length is that path's weight. -/
def CandOk (G0 : Graph) (s t : Node) (w : String) (c : Cand) : Prop :=
  GoodPath G0 s t c.2.2 ∧ c.1 = get_path_length G0 c.2.2 w

/-- The loop invariant of the outer Yen iteration: the graph is fully
restored, at least one path has been accepted, lengths match their paths'
weights pairwise, every accepted path is a loopless `s`–`t` path, and
every heap entry is well-formed. -/
def StInv (G0 : Graph) (s t : Node) (w : String) (st : YState) : Prop :=
  st.G = G0 ∧
  st.paths ≠ [] ∧
  List.Forall₂ (fun l p => l = get_path_length G0 p w) st.lengths st.paths ∧
  (∀ p ∈ st.paths, GoodPath G0 s t p) ∧
  (∀ c ∈ st.B, CandOk G0 s t w c)

/-- The number of leading positions on which two node sequences agree
(the length of their longest common prefix). -/
def lcpLen : List Node → List Node → ℕ
  | a :: p, b :: q => if a = b then lcpLen p q + 1 else 0
  | _, _ => 0

/-- The largest number of leading positions on which `Q` agrees with any
member of `ps` (0 for an empty list). -/
def maxLcp (Q : List Node) : List (List Node) → ℕ
  | [] => 0
  | p :: ps => max (lcpLen Q p) (maxLcp Q ps)

/-- The ordering invariant of the outer Yen loop, holding between
iterations (after a pop, before the next spur scan): the accepted
lengths are non-decreasing; every heap entry is at least as long as the
last accepted length; every loopless `s`–`t` path not yet accepted
weighs at least the last accepted length; and every such path either
has a heap witness — a candidate no heavier than it that agrees with it
on its longest accepted prefix — or attains its longest accepted prefix
on the still-unscanned last accepted path. -/
def OrdInv (G0 : Graph) (s t : Node) (w : String) (st : YState) : Prop :=
  List.Chain' (fun a b => a ≤ b) st.lengths ∧
  (∀ c ∈ st.B, st.lengths.getLastD 0 ≤ c.1) ∧
  (∀ Q, GoodPath G0 s t Q → Q ∉ st.paths →
    st.lengths.getLastD 0 ≤ get_path_length G0 Q w) ∧
  (∀ Q, GoodPath G0 s t Q → Q ∉ st.paths →
    (∃ c ∈ st.B, c.1 ≤ get_path_length G0 Q w ∧ maxLcp Q st.paths ≤ lcpLen Q c.2.2) ∨
    lcpLen Q (st.paths.getLastD []) = maxLcp Q st.paths)

/-! ## Pointwise facts about the graph operations -/

namespace Graph

theorem ext2 {G H : Graph} (hd : G.directed = H.directed) (hn : G.nodes = H.nodes)
    (ha : ∀ a b : Node, G.adj a b = H.adj a b) : G = H := by
  cases G; cases H
  simp only [mk.injEq]
  exact ⟨hd, hn, funext fun a => funext fun b => ha a b⟩

@[simp] theorem directed_removeEdge (G : Graph) (u v : Node) :
    (G.removeEdge u v).directed = G.directed := rfl

@[simp] theorem nodes_removeEdge (G : Graph) (u v : Node) :
    (G.removeEdge u v).nodes = G.nodes := rfl

@[simp] theorem directed_addEdge (G : Graph) (u v : Node) (d : Attr) :
    (G.addEdge u v d).directed = G.directed := rfl

@[simp] theorem nodes_addEdge (G : Graph) (u v : Node) (d : Attr) :
    (G.addEdge u v d).nodes = G.nodes := rfl

theorem adj_removeEdge (G : Graph) (u v a b : Node) :
    (G.removeEdge u v).adj a b =
      if (a = u ∧ b = v) ∨ (¬ G.directed ∧ a = v ∧ b = u) then none else G.adj a b := rfl

theorem adj_addEdge (G : Graph) (u v : Node) (d : Attr) (a b : Node) :
    (G.addEdge u v d).adj a b =
      if (a = u ∧ b = v) ∨ (¬ G.directed ∧ a = v ∧ b = u) then some d else G.adj a b := rfl

@[simp] theorem directed_add_edges_from (G : Graph) (l : List EdgeRec) :
    (G.add_edges_from l).directed = G.directed := by
  induction l generalizing G with
  | nil => rfl
  | cons e l ih => simpa [add_edges_from, List.foldl_cons] using ih (G.addEdge e.1 e.2.1 e.2.2)

@[simp] theorem nodes_add_edges_from (G : Graph) (l : List EdgeRec) :
    (G.add_edges_from l).nodes = G.nodes := by
  induction l generalizing G with
  | nil => rfl
  | cons e l ih => simpa [add_edges_from, List.foldl_cons] using ih (G.addEdge e.1 e.2.1 e.2.2)

@[simp] theorem add_edges_from_nil (G : Graph) : G.add_edges_from [] = G := rfl

theorem add_edges_from_cons (G : Graph) (e : EdgeRec) (l : List EdgeRec) :
    G.add_edges_from (e :: l) = (G.addEdge e.1 e.2.1 e.2.2).add_edges_from l := rfl

theorem add_edges_from_append (G : Graph) (l1 l2 : List EdgeRec) :
    G.add_edges_from (l1 ++ l2) = (G.add_edges_from l1).add_edges_from l2 := by
  simp [add_edges_from, List.foldl_append]

theorem removeEdge_adj_none {G : Graph} {a b : Node} (h : G.adj a b = none) (u v : Node) :
    (G.removeEdge u v).adj a b = none := by
  rw [adj_removeEdge]; split <;> simp [h]

theorem adj_removeEdge_self (G : Graph) (u v : Node) :
    (G.removeEdge u v).adj u v = none := by
  rw [adj_removeEdge]; simp

theorem adj_removeEdge_symm (G : Graph) (hd : G.directed = false) (u v : Node) :
    (G.removeEdge u v).adj v u = none := by
  rw [adj_removeEdge]; simp [hd]

theorem addEdge_adj_untouched {G : Graph} {u v a b : Node} (d : Attr)
    (h1 : ¬(a = u ∧ b = v)) (h2 : G.directed = false → ¬(a = v ∧ b = u)) :
    (G.addEdge u v d).adj a b = G.adj a b := by
  rw [adj_addEdge]
  rcases hdir : G.directed <;> simp_all

theorem addEdge_removeEdge_swap {X : Graph} {x y u v : Node} (d : Attr)
    (h1 : ¬(x = u ∧ y = v)) (h2 : X.directed = false → ¬(x = v ∧ y = u)) :
    (X.removeEdge u v).addEdge x y d = (X.addEdge x y d).removeEdge u v := by
  apply ext2
  · rfl
  · rfl
  intro a b
  rw [adj_addEdge, adj_removeEdge, adj_removeEdge, adj_addEdge]
  simp only [directed_removeEdge, directed_addEdge]
  split_ifs with hA hB
  · exfalso
    rcases hA with ⟨hax, hby⟩ | ⟨hdir, hay, hbx⟩
    · rcases hB with ⟨hau, hbv⟩ | ⟨hdir2, hav, hbu⟩
      · exact h1 ⟨hax.symm.trans hau, hby.symm.trans hbv⟩
      · exact h2 (by simpa using hdir2) ⟨hax.symm.trans hav, hby.symm.trans hbu⟩
    · rcases hB with ⟨hau, hbv⟩ | ⟨hdir2, hav, hbu⟩
      · exact h2 (by simpa using hdir) ⟨hbx.symm.trans hbv, hay.symm.trans hau⟩
      · exact h1 ⟨hbx.symm.trans hbu, hay.symm.trans hav⟩
  · rfl
  · rfl
  · rfl

theorem addEdge_removeEdge_cancel {X : Graph} {u v : Node} {d : Attr}
    (h1 : X.adj u v = some d) (h2 : X.directed = false → X.adj v u = some d) :
    (X.removeEdge u v).addEdge u v d = X := by
  apply ext2
  · rfl
  · rfl
  intro a b
  rw [adj_addEdge, adj_removeEdge]
  simp only [directed_removeEdge]
  split_ifs with hA
  · rcases hA with ⟨ha, hb⟩ | ⟨hdir, ha, hb⟩
    · subst ha; subst hb; exact h1.symm
    · subst ha; subst hb; exact (h2 (by simpa using hdir)).symm
  · rfl

theorem add_edges_from_removeEdge_swap {u v : Node} :
    ∀ {l : List EdgeRec} {X : Graph},
      (∀ e ∈ l, ¬(e.1 = u ∧ e.2.1 = v) ∧ (X.directed = false → ¬(e.1 = v ∧ e.2.1 = u))) →
      (X.removeEdge u v).add_edges_from l = (X.add_edges_from l).removeEdge u v
  | [], X, _ => rfl
  | e :: l, X, h => by
    rw [add_edges_from_cons, add_edges_from_cons,
      addEdge_removeEdge_swap e.2.2 (h e (by simp)).1 (h e (by simp)).2]
    exact add_edges_from_removeEdge_swap fun e' he' =>
      ⟨(h e' (by simp [he'])).1, fun hd => (h e' (by simp [he'])).2 (by simpa using hd)⟩

theorem adj_add_edges_from_untouched {a b : Node} :
    ∀ {l : List EdgeRec} {X : Graph},
      (∀ e ∈ l, ¬(a = e.1 ∧ b = e.2.1) ∧ (X.directed = false → ¬(a = e.2.1 ∧ b = e.1))) →
      (X.add_edges_from l).adj a b = X.adj a b
  | [], X, _ => rfl
  | e :: l, X, h => by
    rw [add_edges_from_cons,
      adj_add_edges_from_untouched fun e' he' =>
        ⟨(h e' (by simp [he'])).1, fun hd => (h e' (by simp [he'])).2 (by simpa using hd)⟩,
      addEdge_adj_untouched e.2.2 (h e (by simp)).1 (h e (by simp)).2]

end Graph

/-! ## The restoration invariant (one spur-node iteration) -/

theorem mem_successors {G : Graph} {u v : Node} :
    v ∈ G.successors u ↔ v ∈ G.nodes ∧ (G.adj u v).isSome := by
  simp [Graph.successors, List.mem_filter]

theorem mem_predecessors {G : Graph} {u v : Node} :
    v ∈ G.predecessors u ↔ v ∈ G.nodes ∧ (G.adj v u).isSome := by
  simp [Graph.predecessors, List.mem_filter]

theorem restores_init {G0 : Graph} (h : G0.WF) : restores G0 G0 [] :=
  ⟨rfl, by simp, rfl, rfl, h.2.2⟩

theorem restores_removeEdge {G0 Gc : Graph} {rem : List EdgeRec} {u v : Node} {d : Attr}
    (h : restores G0 Gc rem) (hv : Gc.adj u v = some d) :
    restores G0 (Gc.removeEdge u v) (rem ++ [(u, v, d)]) := by
  obtain ⟨h1, h2, h3, h4, h5⟩ := h
  have hd : ∀ e ∈ rem,
      ¬(e.1 = u ∧ e.2.1 = v) ∧ (Gc.directed = false → ¬(e.1 = v ∧ e.2.1 = u)) := by
    intro e he
    constructor
    · rintro ⟨heu, hev⟩
      have hn := (h2 e he).1
      rw [heu, hev, hv] at hn
      exact Option.noConfusion hn
    · intro hdf
      rintro ⟨hev, heu⟩
      have hn := (h2 e he).2 hdf
      rw [heu, hev, hv] at hn
      exact Option.noConfusion hn
  have hGadj : G0.adj u v = some d := by
    rw [← h1,
      Graph.adj_add_edges_from_untouched (fun e he =>
        ⟨fun hp => (hd e he).1 ⟨hp.1.symm, hp.2.symm⟩,
         fun hdf hp => (hd e he).2 hdf ⟨hp.2.symm, hp.1.symm⟩⟩)]
    exact hv
  have hGadj2 : G0.directed = false → G0.adj v u = some d := by
    intro hdf0
    have hdf : Gc.directed = false := h3.trans hdf0
    rw [← h1,
      Graph.adj_add_edges_from_untouched (fun e he =>
        ⟨fun hp => (hd e he).2 hdf ⟨hp.1.symm, hp.2.symm⟩,
         fun _ hp => (hd e he).1 ⟨hp.2.symm, hp.1.symm⟩⟩),
      h5 hdf v u]
    exact hv
  refine ⟨?_, ?_, by simpa using h3, by simpa using h4, ?_⟩
  · rw [Graph.add_edges_from_append, Graph.add_edges_from_removeEdge_swap hd, h1]
    exact Graph.addEdge_removeEdge_cancel hGadj hGadj2
  · intro e he
    rcases List.mem_append.mp he with hold | hnew
    · exact ⟨Graph.removeEdge_adj_none (h2 e hold).1 u v,
        fun hdf => Graph.removeEdge_adj_none ((h2 e hold).2 (by simpa using hdf)) u v⟩
    · have he' : e = (u, v, d) := by simpa using hnew
      subst he'
      exact ⟨Graph.adj_removeEdge_self Gc u v,
        fun hdf => Graph.adj_removeEdge_symm Gc (by simpa using hdf) u v⟩
  · intro hdf a b
    have hdf' : Gc.directed = false := by simpa using hdf
    rw [Graph.adj_removeEdge, Graph.adj_removeEdge]
    simp only [hdf', Bool.false_eq_true, not_false_iff, true_and]
    split_ifs with p q <;> first | rfl | exact h5 hdf' a b | tauto

theorem sharedStep_restores {G0 : Graph} {j : ℕ} {root : List Node}
    {Gc : Graph} {rem : List EdgeRec} {cp : List Node} {G2 : Graph} {rem2 : List EdgeRec}
    (h : restores G0 Gc rem)
    (hs : sharedStep j root (Gc, rem) cp = .ok (G2, rem2)) : restores G0 G2 rem2 := by
  unfold sharedStep at hs
  split at hs
  · split at hs
    · rename_i u v _ _
      split at hs
      · rename_i hhe
        have hhe' : (Gc.adj u v).isSome := hhe
        obtain ⟨d, hv⟩ := Option.isSome_iff_exists.mp hhe'
        have hok : Gc.removeEdge u v = G2 ∧ rem ++ [(u, v, Gc.edgeData u v)] = rem2 := by
          simpa using hs
        have hed : Gc.edgeData u v = d := by simp [Graph.edgeData, hv]
        obtain ⟨rfl, hrem⟩ := hok
        rw [← hrem, hed]
        exact restores_removeEdge h hv
      · obtain ⟨rfl, rfl⟩ : Gc = G2 ∧ rem = rem2 := by simpa using hs
        exact h
    · exact absurd hs (by simp)
  · obtain ⟨rfl, rfl⟩ : Gc = G2 ∧ rem = rem2 := by simpa using hs
    exact h

theorem foldlM_sharedStep_restores {G0 : Graph} {j : ℕ} {root : List Node} :
    ∀ (ps : List (List Node)) {Gc : Graph} {rem : List EdgeRec} {G2 : Graph} {rem2 : List EdgeRec},
      restores G0 Gc rem →
      List.foldlM (sharedStep j root) (Gc, rem) ps = .ok (G2, rem2) →
      restores G0 G2 rem2
  | [], Gc, rem, G2, rem2, h, hf => by
      have h2 : (Gc, rem) = (G2, rem2) := Except.ok.inj hf
      injection h2 with e1 e2
      subst e1; subst e2
      exact h
  | cp :: ps, Gc, rem, G2, rem2, h, hf => by
      rw [List.foldlM_cons] at hf
      cases hstep : sharedStep j root (Gc, rem) cp with
      | error e =>
          rw [hstep] at hf
          exact Except.noConfusion (show (Except.error e : Except Err (Graph × List EdgeRec)) =
            .ok (G2, rem2) from hf)
      | ok st1 =>
          rw [hstep] at hf
          have hf' : List.foldlM (sharedStep j root) st1 ps = .ok (G2, rem2) := hf
          exact foldlM_sharedStep_restores ps (sharedStep_restores h hstep) hf'

theorem removeOutList_restores {G0 : Graph} {node : Node} :
    ∀ (l : List Node), l.Nodup →
      ∀ {Gc : Graph} {rem : List EdgeRec},
        restores G0 Gc rem →
        (∀ v ∈ l, (Gc.adj node v).isSome) →
        restores G0 (removeOutList node l (Gc, rem)).1 (removeOutList node l (Gc, rem)).2
  | [], _, Gc, rem, h, _ => h
  | v :: vs, hnd, Gc, rem, h, hp => by
      rw [removeOutList]
      obtain ⟨d, hv⟩ := Option.isSome_iff_exists.mp (hp v (by simp))
      have hed : Gc.edgeData node v = d := by simp [Graph.edgeData, hv]
      simp only [hed]
      refine removeOutList_restores vs (List.Nodup.of_cons hnd) (restores_removeEdge h hv) ?_
      intro v2 hv2
      rw [Graph.adj_removeEdge]
      split
      · rename_i hpat
        exfalso
        rcases hpat with ⟨_, hvv⟩ | ⟨_, hnv, hvn⟩
        · exact (List.nodup_cons.mp hnd).1 (hvv ▸ hv2)
        · exact (List.nodup_cons.mp hnd).1 ((hvn.trans hnv) ▸ hv2)
      · exact hp v2 (List.mem_cons_of_mem v hv2)

theorem removeInList_restores {G0 : Graph} {node : Node} :
    ∀ (l : List Node), l.Nodup →
      ∀ {Gc : Graph} {rem : List EdgeRec},
        restores G0 Gc rem →
        (∀ u ∈ l, (Gc.adj u node).isSome) →
        restores G0 (removeInList node l (Gc, rem)).1 (removeInList node l (Gc, rem)).2
  | [], _, Gc, rem, h, _ => h
  | u :: us, hnd, Gc, rem, h, hp => by
      rw [removeInList]
      obtain ⟨d, hv⟩ := Option.isSome_iff_exists.mp (hp u (by simp))
      have hed : Gc.edgeData u node = d := by simp [Graph.edgeData, hv]
      simp only [hed]
      refine removeInList_restores us (List.Nodup.of_cons hnd) (restores_removeEdge h hv) ?_
      intro u2 hu2
      rw [Graph.adj_removeEdge]
      split
      · rename_i hpat
        exfalso
        rcases hpat with ⟨huu, _⟩ | ⟨_, hun, hnu⟩
        · exact (List.nodup_cons.mp hnd).1 (huu ▸ hu2)
        · exact (List.nodup_cons.mp hnd).1 ((hun.trans hnu) ▸ hu2)
      · exact hp u2 (List.mem_cons_of_mem u hu2)

theorem removeOutEdges_restores {G0 Gc : Graph} {rem : List EdgeRec} {node : Node}
    (hWF : G0.WF) (h : restores G0 Gc rem) :
    restores G0 (removeOutEdges Gc rem node).1 (removeOutEdges Gc rem node).2 := by
  refine removeOutList_restores (Gc.successors node) ?_ h ?_
  · exact List.Nodup.filter _ (h.2.2.2.1 ▸ hWF.1)
  · intro v hv; exact (mem_successors.mp hv).2

theorem removeInEdges_restores {G0 Gc : Graph} {rem : List EdgeRec} {node : Node}
    (hWF : G0.WF) (h : restores G0 Gc rem) :
    restores G0 (removeInEdges Gc rem node).1 (removeInEdges Gc rem node).2 := by
  refine removeInList_restores (Gc.predecessors node) ?_ h ?_
  · exact List.Nodup.filter _ (h.2.2.2.1 ▸ hWF.1)
  · intro u hu; exact (mem_predecessors.mp hu).2

theorem removeNodeEdges_restores {G0 : Graph} {st : Graph × List EdgeRec} {node : Node}
    (hWF : G0.WF) (h : restores G0 st.1 st.2) :
    restores G0 (removeNodeEdges st node).1 (removeNodeEdges st node).2 := by
  rw [removeNodeEdges]
  have h1 := @removeOutEdges_restores G0 st.1 st.2 node hWF h
  split
  · exact @removeInEdges_restores G0 _ _ node hWF h1
  · exact h1

theorem foldl_removeNodeEdges_restores {G0 : Graph} (hWF : G0.WF) :
    ∀ (l : List Node) (st : Graph × List EdgeRec),
      restores G0 st.1 st.2 →
      restores G0 (l.foldl removeNodeEdges st).1 (l.foldl removeNodeEdges st).2
  | [], st, h => h
  | node :: l, st, h => by
      rw [List.foldl_cons]
      exact foldl_removeNodeEdges_restores hWF l _ (removeNodeEdges_restores hWF h)

/-! ## Evaluation lemmas for one spur-node iteration -/

theorem ok_bind {ε α β : Type} (a : α) (f : α → Except ε β) :
    ((Except.ok a : Except ε α) >>= f) = f a := rfl

theorem error_bind {ε α β : Type} (e : ε) (f : α → Except ε β) :
    ((Except.error e : Except ε α) >>= f) = .error e := rfl

theorem spurIteration_eval_err {w : String} {t : Node} {ps : List (List Node)}
    {last : List Node} {G0 : Graph} {cnt : ℕ} {B : List Cand} {j : ℕ} {e : Err}
    (hfold : List.foldlM (sharedStep j (last.take (j + 1))) (G0, ([] : List EdgeRec)) ps =
      .error e) :
    spurIteration w t ps last (G0, cnt, B) j = .error e := by
  simp only [spurIteration, hfold, error_bind]

theorem spurIteration_eval_none {w : String} {t : Node} {ps : List (List Node)}
    {last : List Node} {G0 G1 G2 : Graph} {cnt : ℕ} {B : List Cand} {j : ℕ}
    {removed1 removed2 : List EdgeRec}
    (hfold : List.foldlM (sharedStep j (last.take (j + 1))) (G0, ([] : List EdgeRec)) ps =
      .ok (G1, removed1))
    (hst2 : (last.take (j + 1)).dropLast.foldl removeNodeEdges (G1, removed1) = (G2, removed2))
    (hdij : single_source_dijkstra G2 (last.getD j 0) t w = none) :
    spurIteration w t ps last (G0, cnt, B) j = .ok (G2.add_edges_from removed2, cnt, B) := by
  simp only [spurIteration, hfold, ok_bind, hst2, hdij, List.isEmpty_nil, if_true]

theorem spurIteration_eval_some {w : String} {t : Node} {ps : List (List Node)}
    {last : List Node} {G0 G1 G2 : Graph} {cnt : ℕ} {B : List Cand} {j : ℕ}
    {removed1 removed2 : List EdgeRec} {spl : ℕ} {spp : List Node}
    (hfold : List.foldlM (sharedStep j (last.take (j + 1))) (G0, ([] : List EdgeRec)) ps =
      .ok (G1, removed1))
    (hst2 : (last.take (j + 1)).dropLast.foldl removeNodeEdges (G1, removed1) = (G2, removed2))
    (hdij : single_source_dijkstra G2 (last.getD j 0) t w = some (spl, spp)) :
    spurIteration w t ps last (G0, cnt, B) j =
      if spp.isEmpty then .ok (G2.add_edges_from removed2, cnt, B)
      else .ok (G2.add_edges_from removed2, cnt + 1,
        B ++ [(get_path_length (G2.add_edges_from removed2) (last.take (j + 1)) w + spl, cnt,
          (last.take (j + 1)).dropLast ++ spp)]) := by
  simp only [spurIteration, hfold, ok_bind, hst2, hdij]

/-! ## The graph is restored by every spur-node iteration -/

theorem spurIteration_ok_graph {w : String} {t : Node} {ps : List (List Node)}
    {last : List Node} {G0 : Graph} {cnt : ℕ} {B : List Cand} {j : ℕ}
    {G' : Graph} {cnt' : ℕ} {B' : List Cand} (hWF : G0.WF)
    (hs : spurIteration w t ps last (G0, cnt, B) j = .ok (G', cnt', B')) : G' = G0 := by
  cases hfold : List.foldlM (sharedStep j (last.take (j + 1))) (G0, ([] : List EdgeRec)) ps with
  | error e =>
      rw [spurIteration_eval_err hfold] at hs
      exact Except.noConfusion hs
  | ok pr =>
      obtain ⟨G1, removed1⟩ := pr
      rcases hst2 : (last.take (j + 1)).dropLast.foldl removeNodeEdges (G1, removed1) with
        ⟨G2, removed2⟩
      have hres : restores G0 G2 removed2 := by
        have h := foldl_removeNodeEdges_restores hWF ((last.take (j + 1)).dropLast)
          (G1, removed1) (foldlM_sharedStep_restores ps (restores_init hWF) hfold)
        rw [hst2] at h
        exact h
      have hG3 : G2.add_edges_from removed2 = G0 := hres.1
      cases hdij : single_source_dijkstra G2 (last.getD j 0) t w with
      | none =>
          rw [spurIteration_eval_none hfold hst2 hdij] at hs
          have h2 := Except.ok.inj hs
          injection h2 with e1 _
          exact e1.symm.trans hG3
      | some r =>
          obtain ⟨spl, spp⟩ := r
          rw [spurIteration_eval_some hfold hst2 hdij] at hs
          split at hs <;>
          · have h2 := Except.ok.inj hs
            injection h2 with e1 _
            exact e1.symm.trans hG3

theorem foldlM_spurIteration_graph {w : String} {t : Node} {ps : List (List Node)}
    {last : List Node} {G0 : Graph} (hWF : G0.WF) :
    ∀ (js : List ℕ) {cnt : ℕ} {B : List Cand} {G' : Graph} {cnt' : ℕ} {B' : List Cand},
      List.foldlM (spurIteration w t ps last) (G0, cnt, B) js = .ok (G', cnt', B') → G' = G0
  | [], cnt, B, G', cnt', B', h => by
      have h2 := Except.ok.inj h
      injection h2 with e1 _
      exact e1.symm
  | j :: js, cnt, B, G', cnt', B', h => by
      rw [List.foldlM_cons] at h
      cases hstep : spurIteration w t ps last (G0, cnt, B) j with
      | error e =>
          rw [hstep] at h
          exact Except.noConfusion
            (show (Except.error e : Except Err (Graph × ℕ × List Cand)) = _ from h)
      | ok st1 =>
          rw [hstep] at h
          obtain ⟨Gm, cntm, Bm⟩ := st1
          have hG : Gm = G0 := spurIteration_ok_graph hWF hstep
          subst hG
          exact foldlM_spurIteration_graph hWF js h

theorem yenLoop_graph {w : String} {t : Node} {G0 : Graph} (hWF : G0.WF) :
    ∀ (fuel : ℕ) (st : YState), st.G = G0 →
      ∀ {st' : YState}, yenLoop w t fuel st = .ok st' → st'.G = G0
  | 0, st, hG, st', h => by
      have h2 := Except.ok.inj h
      rw [← h2]
      exact hG
  | fuel + 1, st, hG, st', h => by
      rw [yenLoop] at h
      cases hscan : List.foldlM (spurIteration w t st.paths (st.paths.getLastD []))
          (st.G, st.cnt, st.B) (List.range ((st.paths.getLastD []).length - 1)) with
      | error e =>
          rw [hscan] at h
          exact Except.noConfusion
            (show (Except.error e : Except Err YState) = _ from h)
      | ok pr =>
          obtain ⟨Gm, cntm, Bm⟩ := pr
          have hGm : Gm = G0 := by
            subst hG
            exact foldlM_spurIteration_graph hWF _ hscan
          rw [hscan] at h
          rw [show ((Except.ok (Gm, cntm, Bm) : Except Err (Graph × ℕ × List Cand)) >>=
            fun r => match r with
            | (G, cnt, B) =>
              match popSmallest B with
              | none => Except.ok ⟨G, st.lengths, st.paths, cnt, B⟩
              | some ((l, _, p), B2) =>
                  yenLoop w t fuel ⟨G, st.lengths ++ [l], st.paths ++ [p], cnt, B2⟩) =
            (match popSmallest Bm with
              | none => Except.ok ⟨Gm, st.lengths, st.paths, cntm, Bm⟩
              | some ((l, _, p), B2) =>
                  yenLoop w t fuel ⟨Gm, st.lengths ++ [l], st.paths ++ [p], cntm, B2⟩) from rfl]
            at h
          cases hpop : popSmallest Bm with
          | none =>
              rw [hpop] at h
              have h2 := Except.ok.inj h
              rw [← h2]
              exact hGm
          | some pr2 =>
              obtain ⟨⟨l, c, p⟩, B2⟩ := pr2
              rw [hpop] at h
              exact yenLoop_graph hWF fuel _ hGm h

theorem ksp_ok_graph {G : Graph} {s t : Node} {k : ℤ} {w : String}
    {r : List ℕ × List (List Node)} {G2 : Graph} (hWF : G.WF)
    (hok : k_shortest_paths G s t k w = .ok (r, G2)) : G2 = G := by
  unfold k_shortest_paths at hok
  split at hok
  · have h2 := Except.ok.inj hok
    injection h2 with _ e2
    exact e2.symm
  · cases hd : single_source_dijkstra G s t w with
    | none =>
        rw [hd] at hok
        exact Except.noConfusion (show (Except.error Err.noPath :
          Except Err ((List ℕ × List (List Node)) × Graph)) = _ from hok)
    | some pr =>
        obtain ⟨l0, p0⟩ := pr
        rw [hd] at hok
        have hok2 : (yenLoop w t (k - 1).toNat ⟨G, [l0], [p0], 0, []⟩ >>= fun st =>
            (Except.ok ((st.lengths, st.paths), st.G) :
              Except Err ((List ℕ × List (List Node)) × Graph))) = .ok (r, G2) := hok
        cases hyen : yenLoop w t (k - 1).toNat ⟨G, [l0], [p0], 0, []⟩ with
        | error e =>
            rw [hyen] at hok2
            exact Except.noConfusion (show (Except.error e :
              Except Err ((List ℕ × List (List Node)) × Graph)) = _ from hok2)
        | ok st' =>
            rw [hyen, ok_bind] at hok2
            have h2 := Except.ok.inj hok2
            injection h2 with _ e2
            exact e2.symm.trans (yenLoop_graph hWF _ _ rfl hyen)

theorem P2_WF : P2.WF := by
  refine ⟨by decide, ?_, ?_⟩
  · intro u v h
    simp only [P2] at h ⊢
    split at h
    · rename_i hc
      rcases hc with ⟨rfl, rfl⟩ | ⟨rfl, rfl⟩ <;> simp
    · simp at h
  · intro _ u v
    simp only [P2]
    split_ifs <;> first | rfl | tauto

theorem directed_removeOutList (node : Node) :
    ∀ (l : List Node) (st : Graph × List EdgeRec),
      ((removeOutList node l st).1).directed = st.1.directed
  | [], _ => rfl
  | v :: vs, st => by
      rw [removeOutList]
      exact (directed_removeOutList node vs _).trans (by simp)

theorem directed_removeOutEdges (G : Graph) (rem : List EdgeRec) (node : Node) :
    ((removeOutEdges G rem node).1).directed = G.directed :=
  directed_removeOutList node (G.successors node) (G, rem)

/-- Claim C2: the graph's edge set and every edge's attribute mapping are
identical before and after any normally-returning call: every edge removed
during a spur-node iteration is re-inserted with its original attributes
before the next spur node is processed (including on the no-spur-path
branch), so the final graph equals the input graph. -/
theorem C2_graph_restored (G : Graph) (s t : Node) (k : ℤ) (w : String)
    (r : List ℕ × List (List Node)) (G2 : Graph) (hWF : G.WF)
    (hok : k_shortest_paths G s t k w = .ok (r, G2)) : G2 = G :=
  ksp_ok_graph hWF hok

theorem C2_graph_restored_witness :
    ∃ r G2, k_shortest_paths P2 0 1 2 "weight" = .ok (r, G2) ∧ G2 = P2 :=
  ⟨_, _, rfl, C2_graph_restored P2 0 1 2 "weight" _ _ P2_WF rfl⟩

/-- Claim C8: when `source == target` the function returns immediately with
`([0], [[source]])` (and an untouched graph), for every graph and every `k`,
without any shortest-path computation. -/
theorem C8_source_eq_target (G : Graph) (s : Node) (k : ℤ) (w : String) :
    k_shortest_paths G s s k w = .ok (([0], [[s]]), G) := by
  simp [k_shortest_paths]

/-- Claim C10: for `k ≤ 1` (including `k = 0` and negative `k`), with
`source ≠ target` and a path existing, the function returns exactly the
single shortest path and its length — the same result as `k = 1` — because
`range(1, k)` is empty; it neither errors nor returns an empty result. -/
theorem C10_small_k (G : Graph) (s t : Node) (k : ℤ) (w : String) (l : ℕ) (p : List Node)
    (hk : k ≤ 1) (hne : s ≠ t) (hd : single_source_dijkstra G s t w = some (l, p)) :
    k_shortest_paths G s t k w = .ok (([l], [p]), G) := by
  have h0 : (k - 1).toNat = 0 := by omega
  unfold k_shortest_paths
  rw [if_neg hne, hd, h0]
  rfl

theorem C10_small_k_witness :
    (0 : ℤ) ≤ 1 ∧ (0 : Node) ≠ 1 ∧ single_source_dijkstra P2 0 1 "weight" = some (1, [0, 1]) ∧
      k_shortest_paths P2 0 1 0 "weight" = .ok (([1], [[0, 1]]), P2) :=
  ⟨by decide, by decide, by decide, C10_small_k P2 0 1 0 "weight" 1 [0, 1] (by decide) (by decide)
    (by decide)⟩



/-! ## Properties of the modelled shortest-path oracle -/

theorem pickBestFrom_from_list {G : Graph} {w : String} :
    ∀ (L : List (List Node)) (acc : Option (ℕ × List Node)) {bl : ℕ} {bp : List Node},
      pickBestFrom G w acc L = some (bl, bp) →
      acc = some (bl, bp) ∨ (bp ∈ L ∧ bl = get_path_length G bp w)
  | [], acc, bl, bp, h => by
      simp only [pickBestFrom] at h
      exact Or.inl h
  | p :: rest, none, bl, bp, h => by
      rcases pickBestFrom_from_list rest _ h with hacc | ⟨hm, hl⟩
      · have h2 := Option.some.inj hacc
        injection h2 with e1 e2
        exact Or.inr ⟨by simp [e2], by rw [← e1, ← e2]⟩
      · exact Or.inr ⟨by simp [hm], hl⟩
  | p :: rest, some (al, ap), bl, bp, h => by
      rw [pickBestFrom] at h
      split at h
      · rcases pickBestFrom_from_list rest _ h with hacc | ⟨hm, hl⟩
        · have h2 := Option.some.inj hacc
          injection h2 with e1 e2
          exact Or.inr ⟨by simp [e2], by rw [← e1, ← e2]⟩
        · exact Or.inr ⟨by simp [hm], hl⟩
      · rcases pickBestFrom_from_list rest _ h with hacc | ⟨hm, hl⟩
        · exact Or.inl hacc
        · exact Or.inr ⟨by simp [hm], hl⟩

theorem pickBestFrom_le {G : Graph} {w : String} :
    ∀ (L : List (List Node)) (acc : Option (ℕ × List Node)) {bl : ℕ} {bp : List Node},
      pickBestFrom G w acc L = some (bl, bp) →
      (∀ q ∈ L, bl ≤ get_path_length G q w) ∧
      (∀ al ap, acc = some (al, ap) → bl ≤ al)
  | [], acc, bl, bp, h => by
      refine ⟨by simp, fun al ap hacc => ?_⟩
      rw [hacc] at h
      have h2 := Option.some.inj h
      injection h2 with e1 _
      omega
  | p :: rest, none, bl, bp, h => by
      have ih := pickBestFrom_le rest _ h
      have hle : bl ≤ get_path_length G p w := ih.2 _ _ rfl
      refine ⟨fun q hq => ?_, fun al ap hacc => by cases hacc⟩
      rcases List.mem_cons.mp hq with rfl | hq2
      · exact hle
      · exact ih.1 q hq2
  | p :: rest, some (al0, ap0), bl, bp, h => by
      rw [pickBestFrom] at h
      split at h
      · rename_i hlt
        have ih := pickBestFrom_le rest _ h
        have hle : bl ≤ get_path_length G p w := ih.2 _ _ rfl
        refine ⟨fun q hq => ?_, fun al ap hacc => ?_⟩
        · rcases List.mem_cons.mp hq with rfl | hq2
          · exact hle
          · exact ih.1 q hq2
        · have h2 := Option.some.inj hacc
          injection h2 with e1 _
          omega
      · rename_i hge
        have ih := pickBestFrom_le rest _ h
        have hle : bl ≤ al0 := ih.2 _ _ rfl
        refine ⟨fun q hq => ?_, fun al ap hacc => ?_⟩
        · rcases List.mem_cons.mp hq with rfl | hq2
          · omega
          · exact ih.1 q hq2
        · have h2 := Option.some.inj hacc
          injection h2 with e1 _
          omega

theorem pickBestFrom_ne_none {G : Graph} {w : String} :
    ∀ (L : List (List Node)) (al : ℕ) (ap : List Node),
      pickBestFrom G w (some (al, ap)) L ≠ none
  | [], al, ap => by simp [pickBestFrom]
  | p :: rest, al, ap => by
      rw [pickBestFrom]
      split
      · exact pickBestFrom_ne_none rest _ _
      · exact pickBestFrom_ne_none rest _ _

theorem pickBest_ne_none {G : Graph} {w : String} {p : List Node} {L : List (List Node)}
    (hp : p ∈ L) : pickBest G w L ≠ none := by
  cases L with
  | nil => cases hp
  | cons q rest => exact pickBestFrom_ne_none rest _ _

theorem pathsFromTo_sound {G : Graph} {t : Node} :
    ∀ (fuel : ℕ) (u : Node) (visited : List Node) {p : List Node},
      p ∈ pathsFromTo G t fuel u visited →
      p.head? = some u ∧ p.getLast? = some t ∧
        p.Chain' (fun a b => b ∈ G.successors a) ∧ p.Nodup ∧
        ∀ x ∈ p.tail, x ∉ u :: visited
  | fuel, u, visited, p, hp => by
    unfold pathsFromTo at hp
    by_cases hu : u = t
    · rw [if_pos hu] at hp
      have hp2 : p = [u] := by simpa using hp
      subst hp2
      exact ⟨rfl, by simp [hu], by simp, by simp, by simp⟩
    · rw [if_neg hu] at hp
      match fuel with
      | 0 => simp at hp
      | f + 1 =>
        simp only [List.mem_flatMap, List.mem_map, List.mem_filter] at hp
        obtain ⟨v, ⟨hvs, hvn⟩, q, hq, rfl⟩ := hp
        have hvni : v ∉ u :: visited := by simpa using hvn
        obtain ⟨ihh, ihl, ihc, ihn, iht⟩ := pathsFromTo_sound f v (u :: visited) hq
        have hqsub : ∀ x ∈ q, x ∉ u :: visited := by
          intro x hx
          cases q with
          | nil => cases hx
          | cons a q2 =>
              have hav : a = v := by simpa using ihh
              rcases List.mem_cons.mp hx with rfl | hx2
              · rw [hav]; exact hvni
              · intro hmem
                exact iht x hx2 (List.mem_cons_of_mem v hmem)
        refine ⟨rfl, ?_, ?_, ?_, ?_⟩
        · cases q with
          | nil => exact absurd ihh (by simp)
          | cons a q2 =>
              rw [List.getLast?_cons_cons]
              exact ihl
        · cases q with
          | nil => simp
          | cons a q2 =>
              have hav : a = v := by simpa using ihh
              rw [List.chain'_cons]
              exact ⟨by rw [hav]; exact hvs, ihc⟩
        · rw [List.nodup_cons]
          exact ⟨fun hmem => hqsub u hmem (List.mem_cons_self u visited), ihn⟩
        · intro x hx
          exact hqsub x hx

theorem mem_of_getLast?_eq {α : Type} {l : List α} {a : α} (h : l.getLast? = some a) :
    a ∈ l := by
  obtain ⟨ys, rfl⟩ := List.getLast?_eq_some_iff.mp h
  simp

theorem pathsFromTo_comp {G : Graph} {t : Node} :
    ∀ (p : List Node) (fuel : ℕ) (u : Node) (visited : List Node),
      p.head? = some u → p.getLast? = some t →
      p.Chain' (fun a b => b ∈ G.successors a) → p.Nodup →
      (∀ x ∈ p.tail, x ∉ u :: visited) →
      p.length ≤ fuel + 1 →
      p ∈ pathsFromTo G t fuel u visited
  | [], fuel, u, visited, hh, _, _, _, _, _ => by cases hh
  | [a], fuel, u, visited, hh, hl, _, _, _, _ => by
      have hau : a = u := by simpa using hh
      subst hau
      have hat : a = t := by simpa using hl
      unfold pathsFromTo
      rw [if_pos hat]
      simp
  | a :: b :: rest, fuel, u, visited, hh, hl, hc, hn, ht, hlen => by
      have hau : a = u := by simpa using hh
      subst hau
      rw [List.getLast?_cons_cons] at hl
      have hmem_t : t ∈ b :: rest := mem_of_getLast?_eq hl
      have hunt : ¬ a = t := fun h => (List.nodup_cons.mp hn).1 (h ▸ hmem_t)
      unfold pathsFromTo
      rw [if_neg hunt]
      match fuel, hlen with
      | 0, hlen => simp only [List.length_cons] at hlen; omega
      | f + 1, hlen =>
        simp only [List.mem_flatMap, List.mem_map, List.mem_filter]
        refine ⟨b, ⟨(List.chain'_cons.mp hc).1, ?_⟩, b :: rest, ?_, rfl⟩
        · have hb : b ∉ a :: visited := ht b (by simp)
          simpa using hb
        · refine pathsFromTo_comp (b :: rest) f b (a :: visited) rfl hl
            (List.chain'_cons.mp hc).2 (List.nodup_cons.mp hn).2 ?_ ?_
          · intro x hx hxm
            rcases List.mem_cons.mp hxm with rfl | hxm2
            · exact (List.nodup_cons.mp (List.nodup_cons.mp hn).2).1 hx
            · exact ht x (List.mem_cons_of_mem b hx) hxm2
          · simp only [List.length_cons] at hlen ⊢
            omega

theorem chain'_tail_subset_nodes {G : Graph} :
    ∀ {p : List Node}, p.Chain' (fun a b => b ∈ G.successors a) →
      ∀ x ∈ p.tail, x ∈ G.nodes
  | [], _, x, hx => by cases hx
  | [_], _, x, hx => by cases hx
  | a :: b :: rest, hc, x, hx => by
      rcases List.mem_cons.mp hx with rfl | hx2
      · exact (mem_successors.mp (List.chain'_cons.mp hc).1).1
      · exact chain'_tail_subset_nodes (List.chain'_cons.mp hc).2 x hx2

theorem simplePaths_sound {G : Graph} {s t : Node} {p : List Node}
    (hp : p ∈ simplePaths G s t) : GoodPath G s t p := by
  obtain ⟨hh, hl, hc, hn, _⟩ := pathsFromTo_sound (G.nodes.length + 1) s [] hp
  exact ⟨⟨hh, hl, hc⟩, hn⟩

theorem simplePaths_comp {G : Graph} {s t : Node} {p : List Node}
    (hp : GoodPath G s t p) : p ∈ simplePaths G s t := by
  obtain ⟨⟨hh, hl, hc⟩, hn⟩ := hp
  refine pathsFromTo_comp p (G.nodes.length + 1) s [] hh hl hc hn ?_ ?_
  · intro x hx hxm
    have hxs : x = s := by simpa using hxm
    cases p with
    | nil => cases hx
    | cons a tl =>
        have has : a = s := by simpa using hh
        exact (List.nodup_cons.mp hn).1 (by rw [has, ← hxs]; exact hx)
  · cases p with
    | nil => simp
    | cons a tl =>
        have htl_nodes : ∀ x ∈ tl, x ∈ G.nodes := fun x hx =>
          chain'_tail_subset_nodes hc x hx
        have htln : tl.Nodup := (List.nodup_cons.mp hn).2
        have hc1 : tl.toFinset.card = tl.length := by
          rw [List.card_toFinset, htln.dedup]
        have hc2 : tl.toFinset.card ≤ G.nodes.toFinset.card :=
          Finset.card_le_card fun x hxx => by
            simp only [List.mem_toFinset] at hxx ⊢
            exact htl_nodes x hxx
        have hc3 : G.nodes.toFinset.card ≤ G.nodes.length := List.toFinset_card_le _
        simp only [List.length_cons]
        omega

theorem sssd_some_props {G : Graph} {s t : Node} {w : String} {l : ℕ} {p : List Node}
    (h : single_source_dijkstra G s t w = some (l, p)) :
    GoodPath G s t p ∧ l = get_path_length G p w := by
  unfold single_source_dijkstra pickBest at h
  rcases pickBestFrom_from_list (simplePaths G s t) none h with hacc | ⟨hm, hl⟩
  · exact Option.noConfusion hacc
  · exact ⟨simplePaths_sound hm, hl⟩

theorem sssd_min {G : Graph} {s t : Node} {w : String} {l : ℕ} {p : List Node}
    (h : single_source_dijkstra G s t w = some (l, p)) {q : List Node}
    (hq : GoodPath G s t q) : l ≤ get_path_length G q w := by
  unfold single_source_dijkstra pickBest at h
  exact (pickBestFrom_le (simplePaths G s t) none h).1 q (simplePaths_comp hq)

theorem sssd_some_of_good {G : Graph} {s t : Node} (w : String) {q : List Node}
    (hq : GoodPath G s t q) :
    ∃ l p, single_source_dijkstra G s t w = some (l, p) := by
  have hne := pickBest_ne_none (G := G) (w := w) (simplePaths_comp hq)
  unfold single_source_dijkstra
  cases h : pickBest G w (simplePaths G s t) with
  | none => exact absurd h hne
  | some pr =>
      obtain ⟨l, p⟩ := pr
      exact ⟨l, p, rfl⟩

theorem sssd_none_iff {G : Graph} {s t : Node} {w : String} :
    single_source_dijkstra G s t w = none ↔ ∀ q, ¬ GoodPath G s t q := by
  constructor
  · intro h q hq
    obtain ⟨l, p, hs⟩ := sssd_some_of_good w hq
    rw [h] at hs
    exact Option.noConfusion hs
  · intro h
    cases hs : single_source_dijkstra G s t w with
    | none => rfl
    | some pr =>
        obtain ⟨l, p⟩ := pr
        exact absurd (sssd_some_props hs).1 (h p)

theorem dup_decomp {α : Type} {x : α} :
    ∀ {l : List α}, List.Sublist [x, x] l →
      ∃ l1 l2 l3, l = l1 ++ x :: (l2 ++ x :: l3) := by
  intro l h
  induction l with
  | nil => cases h
  | cons y l ih =>
      cases h with
      | cons _ h2 =>
          obtain ⟨l1, l2, l3, rfl⟩ := ih h2
          exact ⟨y :: l1, l2, l3, rfl⟩
      | cons₂ _ h2 =>
          have hx : x ∈ l := List.singleton_sublist.mp h2
          obtain ⟨s2, t2, rfl⟩ := List.append_of_mem hx
          exact ⟨[], s2, t2, rfl⟩

theorem walk_shorten {G : Graph} {s t : Node} :
    ∀ (n : ℕ) (p : List Node), p.length ≤ n → IsWalk G s t p →
      ∃ q, GoodPath G s t q
  | 0, p, hlen, hw => by
      have hp : p = [] := List.eq_nil_of_length_eq_zero (by omega)
      exact ⟨p, hw, by rw [hp]; simp⟩
  | n + 1, p, hlen, hw => by
      by_cases hn : p.Nodup
      · exact ⟨p, hw, hn⟩
      · obtain ⟨x, hdup⟩ := List.exists_duplicate_iff_not_nodup.mpr hn
        obtain ⟨l1, l2, l3, rfl⟩ := dup_decomp (List.duplicate_iff_sublist.mp hdup)
        obtain ⟨hh, hl, hc⟩ := hw
        have hcA : List.Chain' (fun u v => v ∈ G.successors u)
            (l1 ++ ((x :: l2) ++ (x :: l3))) := by
          rw [show l1 ++ ((x :: l2) ++ (x :: l3)) = l1 ++ x :: (l2 ++ x :: l3) from by simp]
          exact hc
        have hc2 := List.chain'_append.mp hcA
        have hc3 := List.chain'_append.mp hc2.2.1
        refine walk_shorten n (l1 ++ x :: l3) ?_ ⟨?_, ?_, ?_⟩
        · simp only [List.length_append, List.length_cons] at hlen ⊢
          omega
        · cases l1 with
          | nil => simpa using hh
          | cons a l1b => simpa using hh
        · have e1 : ((x :: l2) ++ (x :: l3) : List Node) = x :: (l2 ++ x :: l3) := by simp
          have hl2 : (x :: l3).getLast? = some t := by
            rw [← List.getLast?_append_cons (x :: l2) x l3, e1,
              ← List.getLast?_append_cons l1 x (l2 ++ x :: l3)]
            exact hl
          rw [List.getLast?_append_cons]
          exact hl2
        · refine List.Chain'.append hc2.1 hc3.2.1 ?_
          intro a ha y hy
          have hy2 : x = y := by simpa using hy
          refine hc2.2.2 a ha y ?_
          rw [← hy2]
          simp

/-! ## Error classification: `noPath` can only come from the first oracle call -/

theorem sharedStep_error {j : ℕ} {root cp : List Node} {st : Graph × List EdgeRec} {e : Err}
    (h : sharedStep j root st cp = .error e) : e = .indexErr := by
  unfold sharedStep at h
  split at h
  · split at h
    · split at h <;> exact Except.noConfusion h
    · exact (Except.error.inj h).symm
  · exact Except.noConfusion h

theorem foldlM_sharedStep_error {j : ℕ} {root : List Node} :
    ∀ (ps : List (List Node)) (st : Graph × List EdgeRec) {e : Err},
      List.foldlM (sharedStep j root) st ps = .error e → e = .indexErr
  | [], st, e, h =>
      Except.noConfusion (show (Except.ok st : Except Err (Graph × List EdgeRec)) = .error e from h)
  | cp :: ps, st, e, h => by
      rw [List.foldlM_cons] at h
      cases hstep : sharedStep j root st cp with
      | error e2 =>
          rw [hstep] at h
          have h3 := Except.error.inj
            (show (Except.error e2 : Except Err (Graph × List EdgeRec)) = .error e from h)
          rw [← h3]
          exact sharedStep_error hstep
      | ok st1 =>
          rw [hstep] at h
          exact foldlM_sharedStep_error ps st1
            (show List.foldlM (sharedStep j root) st1 ps = .error e from h)

theorem spurIteration_error {w : String} {t : Node} {ps : List (List Node)} {last : List Node}
    {G0 : Graph} {cnt : ℕ} {B : List Cand} {j : ℕ} {e : Err}
    (h : spurIteration w t ps last (G0, cnt, B) j = .error e) : e = .indexErr := by
  cases hfold : List.foldlM (sharedStep j (last.take (j + 1))) (G0, ([] : List EdgeRec)) ps with
  | error e2 =>
      rw [spurIteration_eval_err hfold] at h
      rw [← Except.error.inj h]
      exact foldlM_sharedStep_error ps _ hfold
  | ok pr =>
      obtain ⟨G1, removed1⟩ := pr
      rcases hst2 : (last.take (j + 1)).dropLast.foldl removeNodeEdges (G1, removed1) with
        ⟨G2, removed2⟩
      cases hdij : single_source_dijkstra G2 (last.getD j 0) t w with
      | none =>
          rw [spurIteration_eval_none hfold hst2 hdij] at h
          exact Except.noConfusion h
      | some r =>
          obtain ⟨spl, spp⟩ := r
          rw [spurIteration_eval_some hfold hst2 hdij] at h
          split at h <;> exact Except.noConfusion h

theorem foldlM_spurIteration_error {w : String} {t : Node} {ps : List (List Node)}
    {last : List Node} :
    ∀ (js : List ℕ) (st : Graph × ℕ × List Cand) {e : Err},
      List.foldlM (spurIteration w t ps last) st js = .error e → e = .indexErr
  | [], st, e, h =>
      Except.noConfusion (show (Except.ok st : Except Err (Graph × ℕ × List Cand)) = .error e from h)
  | j :: js, st, e, h => by
      rw [List.foldlM_cons] at h
      obtain ⟨G0, cnt, B⟩ := st
      cases hstep : spurIteration w t ps last (G0, cnt, B) j with
      | error e2 =>
          rw [hstep] at h
          rw [← Except.error.inj
            (show (Except.error e2 : Except Err (Graph × ℕ × List Cand)) = .error e from h)]
          exact spurIteration_error hstep
      | ok st1 =>
          rw [hstep] at h
          exact foldlM_spurIteration_error js st1
            (show List.foldlM (spurIteration w t ps last) st1 js = .error e from h)

theorem yenLoop_error {w : String} {t : Node} :
    ∀ (fuel : ℕ) (st : YState) {e : Err}, yenLoop w t fuel st = .error e → e = .indexErr
  | 0, st, e, h => Except.noConfusion h
  | fuel + 1, st, e, h => by
      rw [yenLoop] at h
      cases hscan : List.foldlM (spurIteration w t st.paths (st.paths.getLastD []))
          (st.G, st.cnt, st.B) (List.range ((st.paths.getLastD []).length - 1)) with
      | error e2 =>
          rw [hscan] at h
          rw [← Except.error.inj (show (Except.error e2 : Except Err YState) = .error e from h)]
          exact foldlM_spurIteration_error _ _ hscan
      | ok pr =>
          obtain ⟨Gm, cntm, Bm⟩ := pr
          rw [hscan] at h
          have h2 : (match popSmallest Bm with
              | none => Except.ok (⟨Gm, st.lengths, st.paths, cntm, Bm⟩ : YState)
              | some ((l, _, p), B2) =>
                  yenLoop w t fuel ⟨Gm, st.lengths ++ [l], st.paths ++ [p], cntm, B2⟩) =
              .error e := h
          cases hpop : popSmallest Bm with
          | none =>
              rw [hpop] at h2
              exact Except.noConfusion h2
          | some pr2 =>
              obtain ⟨⟨l, c, p⟩, B2⟩ := pr2
              rw [hpop] at h2
              exact yenLoop_error fuel _ h2

theorem ksp_noPath_iff {G : Graph} {s t : Node} {k : ℤ} {w : String} (hne : s ≠ t) :
    k_shortest_paths G s t k w = .error .noPath ↔ single_source_dijkstra G s t w = none := by
  unfold k_shortest_paths
  rw [if_neg hne]
  cases hd : single_source_dijkstra G s t w with
  | none => simp
  | some pr =>
      obtain ⟨l0, p0⟩ := pr
      refine iff_of_false ?_ (by simp)
      intro h
      have h0 : (yenLoop w t (k - 1).toNat ⟨G, [l0], [p0], 0, []⟩ >>= fun st =>
          (Except.ok ((st.lengths, st.paths), st.G) :
            Except Err ((List ℕ × List (List Node)) × Graph))) = .error .noPath := h
      cases hyen : yenLoop w t (k - 1).toNat ⟨G, [l0], [p0], 0, []⟩ with
      | error e =>
          rw [hyen] at h0
          have h2 := Except.error.inj (show (Except.error e :
            Except Err ((List ℕ × List (List Node)) × Graph)) = .error .noPath from h0)
          exact Err.noConfusion (h2.symm.trans (yenLoop_error _ _ hyen))
      | ok st' =>
          rw [hyen, ok_bind] at h0
          exact Except.noConfusion h0

/-- Claim C5: with `source ≠ target`, the call signals the no-path error
exactly when source and target are disconnected in the input graph; the
error comes only from the very first shortest-path computation (the
result is `NoPath` precisely when that first call fails; spur-node
oracle failures are swallowed and never surface). -/
theorem C5_noPath_error (G : Graph) (s t : Node) (k : ℤ) (w : String) (hne : s ≠ t) :
    (k_shortest_paths G s t k w = .error .noPath ↔ ¬ Connected G s t) ∧
    (k_shortest_paths G s t k w = .error .noPath ↔ single_source_dijkstra G s t w = none) := by
  have h2 := ksp_noPath_iff (G := G) (k := k) (w := w) hne
  refine ⟨h2.trans ?_, h2⟩
  rw [sssd_none_iff]
  constructor
  · intro hall hcon
    obtain ⟨p, hw⟩ := hcon
    obtain ⟨q, hq⟩ := walk_shorten p.length p le_rfl hw
    exact hall q hq
  · intro hnc q hq
    exact hnc ⟨q, hq.1⟩

theorem C5_noPath_error_witness :
    (0 : Node) ≠ 1 ∧
      (k_shortest_paths D2 0 1 2 "weight" = .error .noPath ↔ ¬ Connected D2 0 1) :=
  ⟨by decide, (C5_noPath_error D2 0 1 2 "weight" (by decide)).1⟩

/-! ## The excluded graph: removal-only facts and interior-node isolation -/

theorem restores_sub {G0 Gc : Graph} {rem : List EdgeRec} (h : restores G0 Gc rem) :
    ∀ a b : Node, Gc.adj a b = G0.adj a b ∨ Gc.adj a b = none := by
  intro a b
  by_cases htouch : ∃ e ∈ rem,
    (a = e.1 ∧ b = e.2.1) ∨ (Gc.directed = false ∧ a = e.2.1 ∧ b = e.1)
  · obtain ⟨e, he, hpat⟩ := htouch
    right
    rcases hpat with ⟨ha, hb⟩ | ⟨hdir, ha, hb⟩
    · rw [ha, hb]; exact (h.2.1 e he).1
    · rw [ha, hb]; exact (h.2.1 e he).2 hdir
  · left
    rw [← h.1]
    refine (Graph.adj_add_edges_from_untouched fun e he => ⟨?_, ?_⟩).symm
    · intro hp; exact htouch ⟨e, he, Or.inl hp⟩
    · intro hdir hp; exact htouch ⟨e, he, Or.inr ⟨hdir, hp⟩⟩

theorem gpl_cons_cons (G : Graph) (u v : Node) (rest : List Node) (w : String) :
    get_path_length G (u :: v :: rest) w =
      (((G.adj u v).getD []).lookup w).getD 1 + get_path_length G (v :: rest) w := rfl

theorem gpl_append (G : Graph) (w : String) :
    ∀ (A : List Node) (x : Node) (C : List Node),
      get_path_length G (A ++ x :: C) w =
        get_path_length G (A ++ [x]) w + get_path_length G (x :: C) w
  | [], x, C => by simp [get_path_length]
  | [a], x, C => by
      simp only [List.cons_append, List.nil_append]
      rw [gpl_cons_cons]
      have h1 : get_path_length G [a, x] w =
          (((G.adj a x).getD []).lookup w).getD 1 := by
        rw [gpl_cons_cons]
        simp [get_path_length]
      rw [h1]
  | a :: b :: A, x, C => by
      have ih := gpl_append G w (b :: A) x C
      simp only [List.cons_append] at ih ⊢
      rw [gpl_cons_cons, gpl_cons_cons, ih]
      omega

theorem gpl_eq_of_agree {G2 G0 : Graph}
    (hagree : ∀ a b : Node, G2.adj a b = G0.adj a b ∨ G2.adj a b = none) (w : String) :
    ∀ {p : List Node}, p.Chain' (fun a b => (G2.adj a b).isSome) →
      get_path_length G2 p w = get_path_length G0 p w
  | [], _ => rfl
  | [_], _ => rfl
  | u :: v :: rest, hc => by
      obtain ⟨h1, h2⟩ := List.chain'_cons.mp hc
      have he : G2.adj u v = G0.adj u v := by
        rcases hagree u v with h | h
        · exact h
        · rw [h] at h1; exact absurd h1 (by simp)
      rw [gpl_cons_cons, gpl_cons_cons, he, gpl_eq_of_agree hagree w h2]

theorem chain_step_isSome {G : Graph} {p : List Node}
    (hc : p.Chain' (fun a b => b ∈ G.successors a)) :
    p.Chain' (fun a b => (G.adj a b).isSome) :=
  hc.imp fun a b hab => (mem_successors.mp hab).2

theorem goodPath_mono {G2 G0 : Graph}
    (hagree : ∀ a b : Node, G2.adj a b = G0.adj a b ∨ G2.adj a b = none)
    (hnodes : G2.nodes = G0.nodes) {s t : Node} {p : List Node}
    (hp : GoodPath G2 s t p) : GoodPath G0 s t p := by
  obtain ⟨⟨hh, hl, hc⟩, hn⟩ := hp
  refine ⟨⟨hh, hl, hc.imp ?_⟩, hn⟩
  intro a b hab
  rw [mem_successors] at hab ⊢
  refine ⟨hnodes ▸ hab.1, ?_⟩
  rcases hagree a b with h | h
  · rw [← h]; exact hab.2
  · rw [h] at hab; exact absurd hab.2 (by simp)

theorem removeOutList_none_mono {node a b : Node} :
    ∀ (l : List Node) (st : Graph × List EdgeRec), st.1.adj a b = none →
      ((removeOutList node l st).1).adj a b = none
  | [], _, h => h
  | v :: vs, st, h => by
      rw [removeOutList]
      exact removeOutList_none_mono vs _ (Graph.removeEdge_adj_none h node v)

theorem removeInList_none_mono {node a b : Node} :
    ∀ (l : List Node) (st : Graph × List EdgeRec), st.1.adj a b = none →
      ((removeInList node l st).1).adj a b = none
  | [], _, h => h
  | u :: us, st, h => by
      rw [removeInList]
      exact removeInList_none_mono us _ (Graph.removeEdge_adj_none h u node)

theorem nodes_removeOutList (node : Node) :
    ∀ (l : List Node) (st : Graph × List EdgeRec),
      ((removeOutList node l st).1).nodes = st.1.nodes
  | [], _ => rfl
  | v :: vs, st => (nodes_removeOutList node vs _).trans (by simp)

theorem nodes_removeInList (node : Node) :
    ∀ (l : List Node) (st : Graph × List EdgeRec),
      ((removeInList node l st).1).nodes = st.1.nodes
  | [], _ => rfl
  | u :: us, st => (nodes_removeInList node us _).trans (by simp)

theorem directed_removeInList (node : Node) :
    ∀ (l : List Node) (st : Graph × List EdgeRec),
      ((removeInList node l st).1).directed = st.1.directed
  | [], _ => rfl
  | u :: us, st => (directed_removeInList node us _).trans (by simp)

theorem removeNodeEdges_none_mono {a b : Node} {st : Graph × List EdgeRec} {node : Node}
    (h : st.1.adj a b = none) : ((removeNodeEdges st node).1).adj a b = none := by
  rw [removeNodeEdges]
  split
  · exact removeInList_none_mono _ _ (removeOutList_none_mono _ _ h)
  · exact removeOutList_none_mono _ _ h

theorem directed_removeNodeEdges {st : Graph × List EdgeRec} {node : Node} :
    ((removeNodeEdges st node).1).directed = st.1.directed := by
  rw [removeNodeEdges]
  split
  · exact (directed_removeInList _ _ _).trans (directed_removeOutList _ _ _)
  · exact directed_removeOutList _ _ _

theorem nodes_removeNodeEdges {st : Graph × List EdgeRec} {node : Node} :
    ((removeNodeEdges st node).1).nodes = st.1.nodes := by
  rw [removeNodeEdges]
  split
  · exact (nodes_removeInList _ _ _).trans (nodes_removeOutList _ _ _)
  · exact nodes_removeOutList _ _ _

theorem foldl_removeNodeEdges_none_mono {a b : Node} :
    ∀ (l : List Node) (st : Graph × List EdgeRec), st.1.adj a b = none →
      ((l.foldl removeNodeEdges st).1).adj a b = none
  | [], _, h => h
  | x :: l, st, h => by
      rw [List.foldl_cons]
      exact foldl_removeNodeEdges_none_mono l _ (removeNodeEdges_none_mono h)

theorem directed_foldl_removeNodeEdges :
    ∀ (l : List Node) (st : Graph × List EdgeRec),
      ((l.foldl removeNodeEdges st).1).directed = st.1.directed
  | [], _ => rfl
  | x :: l, st => by
      rw [List.foldl_cons]
      exact (directed_foldl_removeNodeEdges l _).trans directed_removeNodeEdges

theorem removeOutList_out_none {node : Node} :
    ∀ (l : List Node) (st : Graph × List EdgeRec),
      (∀ a : Node, (st.1.adj node a).isSome → a ∈ l) →
      ∀ a : Node, ((removeOutList node l st).1).adj node a = none
  | [], st, hcov, a => by
      cases hadj : st.1.adj node a with
      | none => exact hadj
      | some d => exact absurd (hcov a (by rw [hadj]; rfl)) (by simp)
  | v :: vs, st, hcov, a => by
      rw [removeOutList]
      refine removeOutList_out_none vs _ ?_ a
      intro a2 h2
      have horig : (st.1.adj node a2).isSome := by
        rw [Graph.adj_removeEdge] at h2
        split at h2
        · exact absurd h2 (by simp)
        · exact h2
      rcases List.mem_cons.mp (hcov a2 horig) with rfl | h3
      · rw [Graph.adj_removeEdge_self] at h2
        exact absurd h2 (by simp)
      · exact h3

theorem removeInList_in_none {node : Node} :
    ∀ (l : List Node) (st : Graph × List EdgeRec),
      (∀ a : Node, (st.1.adj a node).isSome → a ∈ l) →
      ∀ a : Node, ((removeInList node l st).1).adj a node = none
  | [], st, hcov, a => by
      cases hadj : st.1.adj a node with
      | none => exact hadj
      | some d => exact absurd (hcov a (by rw [hadj]; rfl)) (by simp)
  | u :: us, st, hcov, a => by
      rw [removeInList]
      refine removeInList_in_none us _ ?_ a
      intro a2 h2
      have horig : (st.1.adj a2 node).isSome := by
        rw [Graph.adj_removeEdge] at h2
        split at h2
        · exact absurd h2 (by simp)
        · exact h2
      rcases List.mem_cons.mp (hcov a2 horig) with rfl | h3
      · rw [Graph.adj_removeEdge_self] at h2
        exact absurd h2 (by simp)
      · exact h3

theorem removeOutEdges_none_mono {G : Graph} {rem : List EdgeRec} {node a b : Node}
    (h : G.adj a b = none) : ((removeOutEdges G rem node).1).adj a b = none :=
  removeOutList_none_mono _ _ h

theorem removeNodeEdges_isolates (st : Graph × List EdgeRec) (node : Node)
    (hWFe : ∀ a b : Node, (st.1.adj a b).isSome → a ∈ st.1.nodes ∧ b ∈ st.1.nodes) :
    (∀ a : Node, ((removeNodeEdges st node).1).adj node a = none) ∧
    (((removeNodeEdges st node).1).directed = true →
      ∀ a : Node, ((removeNodeEdges st node).1).adj a node = none) := by
  have hout : ∀ a, ((removeOutEdges st.1 st.2 node).1).adj node a = none := by
    refine removeOutList_out_none _ _ ?_
    intro a ha
    exact mem_successors.mpr ⟨(hWFe node a ha).2, ha⟩
  rw [removeNodeEdges]
  split
  · constructor
    · intro a
      exact removeInList_none_mono _ _ (hout a)
    · intro _ a
      refine removeInList_in_none _ _ ?_ a
      intro a2 h2
      have horig : (st.1.adj a2 node).isSome := by
        by_contra hno
        rw [Option.not_isSome_iff_eq_none] at hno
        rw [removeOutEdges_none_mono hno] at h2
        exact absurd h2 (by simp)
      refine mem_predecessors.mpr ⟨?_, h2⟩
      rw [show ((removeOutEdges st.1 st.2 node).1).nodes = st.1.nodes from
        nodes_removeOutList node _ _]
      exact (hWFe a2 node horig).1
  · rename_i hdir
    refine ⟨hout, fun hdir2 => absurd hdir2 ?_⟩
    simp only [Graph.is_directed] at hdir
    exact hdir

theorem foldl_removeNodeEdges_isolates :
    ∀ (l : List Node) (st : Graph × List EdgeRec),
      (∀ a b : Node, (st.1.adj a b).isSome → a ∈ st.1.nodes ∧ b ∈ st.1.nodes) →
      ∀ x ∈ l,
        (∀ a : Node, ((l.foldl removeNodeEdges st).1).adj x a = none) ∧
        (((l.foldl removeNodeEdges st).1).directed = true →
          ∀ a : Node, ((l.foldl removeNodeEdges st).1).adj a x = none)
  | [], _, _, x, hx => by cases hx
  | node :: l, st, hWFe, x, hx => by
      rw [List.foldl_cons]
      have hWFe2 : ∀ a b : Node, (((removeNodeEdges st node).1).adj a b).isSome →
          a ∈ ((removeNodeEdges st node).1).nodes ∧ b ∈ ((removeNodeEdges st node).1).nodes := by
        intro a b hab
        have horig : (st.1.adj a b).isSome := by
          by_contra hno
          rw [Option.not_isSome_iff_eq_none] at hno
          rw [removeNodeEdges_none_mono hno] at hab
          exact absurd hab (by simp)
        rw [nodes_removeNodeEdges]
        exact hWFe a b horig
      rcases List.mem_cons.mp hx with rfl | hx2
      · have hiso := removeNodeEdges_isolates st x hWFe
        constructor
        · intro a
          exact foldl_removeNodeEdges_none_mono l _ (hiso.1 a)
        · intro hdirr a
          have hdir2 : ((removeNodeEdges st x).1).directed = true := by
            rw [← directed_foldl_removeNodeEdges l (removeNodeEdges st x)]
            exact hdirr
          exact foldl_removeNodeEdges_none_mono l _ (hiso.2 hdir2 a)
      · exact foldl_removeNodeEdges_isolates l _ hWFe2 x hx2

/-! ## The candidate built from a spur path is a loopless s-t path -/

theorem chain'_mem_cases {α : Type} {R : α → α → Prop} :
    ∀ {p : List α}, p.Chain' R → ∀ x ∈ p, p.head? = some x ∨ ∃ u, R u x
  | [], _, x, hx => by cases hx
  | a :: rest, hc, x, hx => by
      rcases List.mem_cons.mp hx with rfl | hx2
      · exact Or.inl rfl
      · cases rest with
        | nil => cases hx2
        | cons b rest2 =>
            have hc2 := List.chain'_cons.mp hc
            rcases chain'_mem_cases hc2.2 x hx2 with hh | hstep
            · have hbx : b = x := by simpa using hh
              exact Or.inr ⟨a, hbx ▸ hc2.1⟩
            · exact Or.inr hstep

theorem take_head? {α : Type} (L : List α) (j : ℕ) :
    (L.take (j + 1)).head? = L.head? := by
  cases L <;> simp

theorem take_succ_getD {L : List Node} {j : ℕ} (hj : j < L.length) :
    L.take (j + 1) = L.take j ++ [L.getD j 0] := by
  rw [List.take_succ]
  congr 1
  rw [List.getElem?_eq_getElem hj]
  simp [List.getD_eq_getElem?_getD, List.getElem?_eq_getElem hj]

theorem head?_append_cons_eq {α : Type} {A B : List α} {x : α} (hB : B.head? = some x) :
    (A ++ B).head? = (A ++ [x]).head? := by
  cases A with
  | nil => simpa using hB
  | cons a A2 => simp

theorem spur_candidate_good {G0 : Graph} {s t : Node} {w : String} {ps : List (List Node)}
    {L : List Node} {j : ℕ} {G1 G2 : Graph} {removed1 removed2 : List EdgeRec}
    {spl : ℕ} {spp : List Node}
    (hWF : G0.WF)
    (hL : GoodPath G0 s t L)
    (hj : j < L.length - 1)
    (hfold : List.foldlM (sharedStep j (L.take (j + 1))) (G0, ([] : List EdgeRec)) ps =
      .ok (G1, removed1))
    (hst2 : (L.take (j + 1)).dropLast.foldl removeNodeEdges (G1, removed1) = (G2, removed2))
    (hdij : single_source_dijkstra G2 (L.getD j 0) t w = some (spl, spp)) :
    GoodPath G0 s t ((L.take (j + 1)).dropLast ++ spp) ∧
    get_path_length G0 ((L.take (j + 1)).dropLast ++ spp) w =
      get_path_length G0 (L.take (j + 1)) w + spl := by
  obtain ⟨⟨hLh, hLl, hLc⟩, hLn⟩ := hL
  have hLne : L ≠ [] := by intro h; rw [h] at hLh; exact Option.noConfusion hLh
  have hjlen : j < L.length := by
    have := List.length_pos.mpr hLne
    omega
  have hroot : L.take (j + 1) = L.take j ++ [L.getD j 0] := take_succ_getD hjlen
  have hdrop : (L.take (j + 1)).dropLast = L.take j := by rw [hroot, List.dropLast_concat]
  have hres1 : restores G0 G1 removed1 :=
    foldlM_sharedStep_restores ps (restores_init hWF) hfold
  have hres2 : restores G0 G2 removed2 := by
    have h := foldl_removeNodeEdges_restores hWF ((L.take (j + 1)).dropLast)
      (G1, removed1) hres1
    rw [hst2] at h
    exact h
  have hagree := restores_sub hres2
  have hnodes2 : G2.nodes = G0.nodes := hres2.2.2.2.1
  obtain ⟨hgood2, hspl⟩ := sssd_some_props hdij
  have hWFe1 : ∀ a b : Node, (G1.adj a b).isSome → a ∈ G1.nodes ∧ b ∈ G1.nodes := by
    intro a b hab
    have h0 : (G0.adj a b).isSome := by
      rcases restores_sub hres1 a b with h | h
      · rw [← h]; exact hab
      · rw [h] at hab; exact absurd hab (by simp)
    rw [hres1.2.2.2.1]
    exact hWF.2.1 a b h0
  have hiso : ∀ x2 ∈ L.take j,
      (∀ a, G2.adj x2 a = none) ∧ (G2.directed = true → ∀ a, G2.adj a x2 = none) := by
    intro x2 hx2
    have h := foldl_removeNodeEdges_isolates ((L.take (j + 1)).dropLast) (G1, removed1)
      hWFe1 x2 (by rw [hdrop]; exact hx2)
    rw [hst2] at h
    exact h
  have hisoIn : ∀ x2 ∈ L.take j, ∀ a, G2.adj a x2 = none := by
    intro x2 hx2 a
    cases hdir : G2.directed with
    | true => exact (hiso x2 hx2).2 hdir a
    | false =>
        rw [hres2.2.2.2.2 hdir a x2]
        exact (hiso x2 hx2).1 a
  obtain ⟨⟨hsh, hsl, hsc⟩, hsn⟩ := hgood2
  have hsne : spp ≠ [] := fun h => by rw [h] at hsh; exact Option.noConfusion hsh
  have hspur_not : L.getD j 0 ∉ L.take j := by
    have hnd : (L.take (j + 1)).Nodup := (List.take_sublist _ _).nodup hLn
    rw [hroot] at hnd
    exact fun hm => (List.nodup_append.mp hnd).2.2 hm (by simp)
  have hdisj : ∀ x2 ∈ L.take j, x2 ∉ spp := by
    intro x2 hx2 hxin
    rcases chain'_mem_cases hsc x2 hxin with hh | ⟨u, hu⟩
    · have hx2spur : x2 = L.getD j 0 := Option.some.inj (hh.symm.trans hsh)
      exact hspur_not (hx2spur ▸ hx2)
    · have hu2 := (mem_successors.mp hu).2
      rw [hisoIn x2 hx2 u] at hu2
      exact absurd hu2 (by simp)
  have hrootc : (L.take (j + 1)).Chain' (fun a b => b ∈ G0.successors a) := hLc.take _
  have hrootc2 := List.chain'_append.mp (by rw [hroot] at hrootc; exact hrootc)
  rw [hdrop]
  constructor
  · refine ⟨⟨?_, ?_, ?_⟩, ?_⟩
    · rw [head?_append_cons_eq hsh, ← hroot, take_head?, hLh]
    · rw [List.getLast?_append_of_ne_nil _ hsne]
      exact hsl
    · refine List.Chain'.append (hLc.take j) (goodPath_mono hagree hnodes2
        ⟨⟨hsh, hsl, hsc⟩, hsn⟩).1.2.2 ?_
      intro a ha y hy
      have hyspur : L.getD j 0 = y := by
        rw [hsh] at hy
        simpa using hy
      subst hyspur
      exact hrootc2.2.2 a ha (L.getD j 0) (by simp)
    · exact List.Nodup.append ((List.take_sublist _ _).nodup hLn) hsn hdisj
  · have hspl0 : spl = get_path_length G0 spp w := by
      rw [hspl]
      exact gpl_eq_of_agree hagree w (chain_step_isSome hsc)
    cases spp with
    | nil => exact absurd rfl hsne
    | cons sp0 sptail =>
        have hsp0 : sp0 = L.getD j 0 := by simpa using hsh
        rw [hspl0, gpl_append G0 w (L.take j) sp0 sptail, hsp0, ← hroot]

/-! ## The spur scan never raises, and only pushes well-formed candidates -/

theorem getD_eq_getElem' {α : Type} {L : List α} {j : ℕ} (d : α) (hj : j < L.length) :
    L.getD j d = L[j] := by
  simp [List.getD_eq_getElem?_getD, List.getElem?_eq_getElem hj]

theorem getLastD_mem {α : Type} {l : List α} (d : α) (h : l ≠ []) : l.getLastD d ∈ l := by
  rw [List.getLastD_eq_getLast?]
  cases hl : l.getLast? with
  | none =>
      cases l with
      | nil => exact absurd rfl h
      | cons a l2 =>
          rw [List.getLast?_eq_getLast_of_ne_nil (List.cons_ne_nil a l2)] at hl
          exact Option.noConfusion hl
  | some x =>
      simp only [Option.getD_some]
      exact mem_of_getLast?_eq hl

theorem spur_ne_target {L : List Node} {t : Node} {j : ℕ} (hLn : L.Nodup)
    (hLl : L.getLast? = some t) (hj : j < L.length - 1) : L.getD j 0 ≠ t := by
  intro h
  have hLne : L ≠ [] := by intro h0; rw [h0] at hLl; exact Option.noConfusion hLl
  have hlen : 0 < L.length := List.length_pos.mpr hLne
  have hjl : j < L.length := by omega
  have h2 : L.getLast hLne = t := by
    rw [List.getLast?_eq_getLast_of_ne_nil hLne] at hLl
    exact Option.some.inj hLl
  have hga : L.get ⟨j, hjl⟩ = L.getD j 0 := by
    rw [List.get_eq_getElem]
    exact (getD_eq_getElem' 0 hjl).symm
  have hgb : L.get ⟨L.length - 1, by omega⟩ = t := by
    rw [List.get_eq_getElem, ← List.getLast_eq_getElem L hLne]
    exact h2
  have h4 : L.get ⟨j, hjl⟩ = L.get ⟨L.length - 1, by omega⟩ := by rw [hga, h, hgb]
  have h5 := (List.Nodup.get_inj_iff hLn).mp h4
  have h6 : j = L.length - 1 := by simpa using h5
  omega

theorem sharedStep_ok_exists {j : ℕ} {L : List Node} {t : Node} (st : Graph × List EdgeRec)
    {cp : List Node} (hjl : j < L.length) (hspur_ne : L.getD j 0 ≠ t)
    (hcp : cp.getLast? = some t) :
    ∃ st2, sharedStep j (L.take (j + 1)) st cp = .ok st2 := by
  unfold sharedStep
  split
  · rename_i hg
    have hj1 : j + 1 < cp.length := by
      rcases Nat.lt_or_ge (j + 1) cp.length with h | h
      · exact h
      · exfalso
        have hcpl : cp.length = j + 1 := by omega
        have hcp_eq : cp.take (j + 1) = cp := by
          rw [← hcpl]; exact List.take_length cp
        rw [← hg.2] at hcp_eq
        have hl2 : (L.take (j + 1)).getLast? = some t := by rw [hcp_eq]; exact hcp
        rw [take_succ_getD hjl, List.getLast?_concat] at hl2
        exact hspur_ne (Option.some.inj hl2)
    have hju : cp[j]? = some cp[j] := List.getElem?_eq_getElem (by omega)
    have hjv : cp[j + 1]? = some cp[j + 1] := List.getElem?_eq_getElem hj1
    rw [hju, hjv]
    show ∃ st2, (if st.1.hasEdge cp[j] cp[j + 1] = true then
        Except.ok (st.1.removeEdge cp[j] cp[j + 1],
          st.2 ++ [(cp[j], cp[j + 1], st.1.edgeData cp[j] cp[j + 1])])
      else Except.ok st) = .ok st2
    by_cases hhe : st.1.hasEdge cp[j] cp[j + 1] = true
    · rw [if_pos hhe]; exact ⟨_, rfl⟩
    · rw [if_neg hhe]; exact ⟨_, rfl⟩
  · exact ⟨_, rfl⟩

theorem foldlM_sharedStep_ok {j : ℕ} {L : List Node} {t : Node}
    (hjl : j < L.length) (hspur_ne : L.getD j 0 ≠ t) :
    ∀ (ps : List (List Node)), (∀ cp ∈ ps, cp.getLast? = some t) →
      ∀ (st : Graph × List EdgeRec),
      ∃ st2, List.foldlM (sharedStep j (L.take (j + 1))) st ps = .ok st2
  | [], _, st => ⟨st, rfl⟩
  | cp :: ps, hps, st => by
      rw [List.foldlM_cons]
      obtain ⟨st1, hst1⟩ := sharedStep_ok_exists st hjl hspur_ne (hps cp (by simp))
      rw [hst1]
      obtain ⟨st2, hst2⟩ :=
        foldlM_sharedStep_ok hjl hspur_ne ps (fun q hq => hps q (by simp [hq])) st1
      exact ⟨st2, hst2⟩

theorem spurIteration_full {G0 : Graph} {s t : Node} {w : String} {ps : List (List Node)}
    {L : List Node} {j : ℕ} (hWF : G0.WF) (hL : GoodPath G0 s t L)
    (hj : j < L.length - 1) (hps_last : ∀ cp ∈ ps, cp.getLast? = some t)
    (cnt : ℕ) (B : List Cand) :
    ∃ cnt2 B2, spurIteration w t ps L (G0, cnt, B) j = .ok (G0, cnt2, B2) ∧
      ∀ c ∈ B2, c ∈ B ∨ CandOk G0 s t w c := by
  have hLne : L ≠ [] := by
    intro h
    rw [h] at hL
    exact Option.noConfusion hL.1.1
  have hjl : j < L.length := by
    have := List.length_pos.mpr hLne
    omega
  have hspur_ne : L.getD j 0 ≠ t := spur_ne_target hL.2 hL.1.2.1 hj
  obtain ⟨⟨G1, removed1⟩, hfold⟩ :=
    foldlM_sharedStep_ok hjl hspur_ne ps hps_last (G0, ([] : List EdgeRec))
  rcases hst2 : (L.take (j + 1)).dropLast.foldl removeNodeEdges (G1, removed1) with
    ⟨G2, removed2⟩
  have hres2 : restores G0 G2 removed2 := by
    have h := foldl_removeNodeEdges_restores hWF ((L.take (j + 1)).dropLast)
      (G1, removed1) (foldlM_sharedStep_restores ps (restores_init hWF) hfold)
    rw [hst2] at h
    exact h
  have hG3 : G2.add_edges_from removed2 = G0 := hres2.1
  cases hdij : single_source_dijkstra G2 (L.getD j 0) t w with
  | none =>
      refine ⟨cnt, B, ?_, fun c hc => Or.inl hc⟩
      rw [spurIteration_eval_none hfold hst2 hdij, hG3]
  | some r =>
      obtain ⟨spl, spp⟩ := r
      by_cases hE : spp.isEmpty
      · refine ⟨cnt, B, ?_, fun c hc => Or.inl hc⟩
        rw [spurIteration_eval_some hfold hst2 hdij, if_pos hE, hG3]
      · have hcand := spur_candidate_good hWF hL hj hfold hst2 hdij
        refine ⟨cnt + 1,
          B ++ [(get_path_length G0 (L.take (j + 1)) w + spl, cnt,
            (L.take (j + 1)).dropLast ++ spp)], ?_, ?_⟩
        · rw [spurIteration_eval_some hfold hst2 hdij, if_neg hE, hG3]
        · intro c hc
          rcases List.mem_append.mp hc with h1 | h2
          · exact Or.inl h1
          · have hc2 : c = (get_path_length G0 (L.take (j + 1)) w + spl, cnt,
                (L.take (j + 1)).dropLast ++ spp) := by simpa using h2
            rw [hc2]
            exact Or.inr ⟨hcand.1, hcand.2.symm⟩

theorem scan_full {G0 : Graph} {s t : Node} {w : String} {ps : List (List Node)}
    {L : List Node} (hWF : G0.WF) (hL : GoodPath G0 s t L)
    (hps_last : ∀ cp ∈ ps, cp.getLast? = some t) :
    ∀ (js : List ℕ), (∀ j ∈ js, j < L.length - 1) → ∀ (cnt : ℕ) (B : List Cand),
      ∃ cnt2 B2, List.foldlM (spurIteration w t ps L) (G0, cnt, B) js = .ok (G0, cnt2, B2) ∧
        ∀ c ∈ B2, c ∈ B ∨ CandOk G0 s t w c
  | [], _, cnt, B => ⟨cnt, B, rfl, fun c hc => Or.inl hc⟩
  | j :: js, hjs, cnt, B => by
      rw [List.foldlM_cons]
      obtain ⟨cnt1, B1, hstep, hB1⟩ :=
        spurIteration_full hWF hL (hjs j (by simp)) hps_last cnt B
      rw [hstep]
      obtain ⟨cnt2, B2, hrest, hB2⟩ :=
        scan_full hWF hL hps_last js (fun q hq => hjs q (by simp [hq])) cnt1 B1
      refine ⟨cnt2, B2, hrest, ?_⟩
      intro c hc
      rcases hB2 c hc with h1 | h2
      · exact hB1 c h1
      · exact Or.inr h2

theorem popSmallest_sub :
    ∀ {B : List Cand} {c : Cand} {B2 : List Cand},
      popSmallest B = some (c, B2) → c ∈ B ∧ ∀ x ∈ B2, x ∈ B
  | [], c, B2, h => by cases h
  | x :: xs, c, B2, h => by
      rw [popSmallest] at h
      cases hp : popSmallest xs with
      | none =>
          rw [hp] at h
          have h2 := Option.some.inj h
          injection h2 with e1 e2
          subst e1
          subst e2
          exact ⟨by simp, by simp⟩
      | some pr =>
          obtain ⟨m, rest⟩ := pr
          rw [hp] at h
          have ih := popSmallest_sub hp
          have h' : (if m.1 < x.1 ∨ (m.1 = x.1 ∧ m.2.1 < x.2.1) then some (m, x :: rest)
              else some (x, xs)) = some (c, B2) := h
          by_cases hlt : m.1 < x.1 ∨ (m.1 = x.1 ∧ m.2.1 < x.2.1)
          · rw [if_pos hlt] at h'
            injection Option.some.inj h' with e1 e2
            rw [← e1, ← e2]
            refine ⟨List.mem_cons_of_mem x ih.1, ?_⟩
            intro y hy
            rcases List.mem_cons.mp hy with rfl | hy2
            · simp
            · exact List.mem_cons_of_mem x (ih.2 y hy2)
          · rw [if_neg hlt] at h'
            injection Option.some.inj h' with e1 e2
            rw [← e1, ← e2]
            exact ⟨by simp, fun y hy => List.mem_cons_of_mem x hy⟩

theorem yenLoop_master {G0 : Graph} {s t : Node} {w : String} (hWF : G0.WF) :
    ∀ (fuel : ℕ) (st : YState), StInv G0 s t w st →
      ∃ st2 : YState, yenLoop w t fuel st = .ok st2 ∧ StInv G0 s t w st2 ∧
        st2.paths.length ≤ st.paths.length + fuel ∧ st.paths.length ≤ st2.paths.length
  | 0, st, hinv => ⟨st, rfl, hinv, by omega, le_rfl⟩
  | fuel + 1, st, hinv => by
      obtain ⟨hG, hne, hfa, hgood, hB⟩ := hinv
      have hLmem : st.paths.getLastD [] ∈ st.paths := getLastD_mem [] hne
      have hL : GoodPath G0 s t (st.paths.getLastD []) := hgood _ hLmem
      have hps_last : ∀ cp ∈ st.paths, cp.getLast? = some t := fun cp hcp =>
        (hgood cp hcp).1.2.1
      obtain ⟨cnt2, B2, hscan, hB2⟩ := scan_full hWF hL hps_last
        (List.range ((st.paths.getLastD []).length - 1))
        (fun j hj => List.mem_range.mp hj) st.cnt st.B
      have hscan2 : List.foldlM (spurIteration w t st.paths (st.paths.getLastD []))
          (st.G, st.cnt, st.B) (List.range ((st.paths.getLastD []).length - 1)) =
          .ok (G0, cnt2, B2) := by rw [hG]; exact hscan
      have hBall : ∀ c ∈ B2, CandOk G0 s t w c := by
        intro c hc
        rcases hB2 c hc with h1 | h2
        · exact hB c h1
        · exact h2
      rw [yenLoop, hscan2]
      rw [show ((Except.ok (G0, cnt2, B2) : Except Err (Graph × ℕ × List Cand)) >>=
          fun r => match r with
          | (G, cnt, B) =>
            match popSmallest B with
            | none => Except.ok ⟨G, st.lengths, st.paths, cnt, B⟩
            | some ((l, _, p), B3) =>
                yenLoop w t fuel ⟨G, st.lengths ++ [l], st.paths ++ [p], cnt, B3⟩) =
          (match popSmallest B2 with
            | none => Except.ok ⟨G0, st.lengths, st.paths, cnt2, B2⟩
            | some ((l, _, p), B3) =>
                yenLoop w t fuel ⟨G0, st.lengths ++ [l], st.paths ++ [p], cnt2, B3⟩) from rfl]
      cases hpop : popSmallest B2 with
      | none =>
          refine ⟨⟨G0, st.lengths, st.paths, cnt2, B2⟩, rfl,
            ⟨rfl, hne, hfa, hgood, hBall⟩, ?_, ?_⟩
          · show st.paths.length ≤ st.paths.length + (fuel + 1)
            omega
          · exact le_rfl
      | some pr =>
          obtain ⟨⟨l, c, p⟩, B3⟩ := pr
          have hcpok : CandOk G0 s t w (l, c, p) := hBall _ (popSmallest_sub hpop).1
          have hB3 : ∀ x ∈ B3, CandOk G0 s t w x := fun x hx =>
            hBall x ((popSmallest_sub hpop).2 x hx)
          have hsingle : List.Forall₂ (fun l2 p2 => l2 = get_path_length G0 p2 w) [l] [p] :=
            List.Forall₂.cons hcpok.2 List.Forall₂.nil
          have hinv2 : StInv G0 s t w ⟨G0, st.lengths ++ [l], st.paths ++ [p], cnt2, B3⟩ := by
            refine ⟨rfl, by simp, List.rel_append hfa hsingle, ?_, hB3⟩
            intro q hq
            rcases List.mem_append.mp hq with h1 | h2
            · exact hgood q h1
            · rw [show q = p from by simpa using h2]
              exact hcpok.1
          obtain ⟨st2, hrun, hinv3, hlen1, hlen2⟩ := yenLoop_master hWF fuel _ hinv2
          refine ⟨st2, hrun, hinv3, ?_, ?_⟩
          · have hh : (st.paths ++ [p]).length = st.paths.length + 1 := by simp
            have hlen1b : st2.paths.length ≤ (st.paths ++ [p]).length + fuel := hlen1
            omega
          · have hh : (st.paths ++ [p]).length = st.paths.length + 1 := by simp
            have hlen2b : (st.paths ++ [p]).length ≤ st2.paths.length := hlen2
            omega

/-! ## Top-level invariants of normal returns -/

theorem ksp_master {G : Graph} {s t : Node} {k : ℤ} {w : String} {l0 : ℕ} {p0 : List Node}
    (hWF : G.WF) (hne : s ≠ t) (hd : single_source_dijkstra G s t w = some (l0, p0)) :
    ∃ st2 : YState, k_shortest_paths G s t k w = .ok ((st2.lengths, st2.paths), st2.G) ∧
      StInv G s t w st2 ∧ 1 ≤ st2.paths.length ∧ st2.paths.length ≤ 1 + (k - 1).toNat := by
  have hp0 := sssd_some_props hd
  have hinv0 : StInv G s t w ⟨G, [l0], [p0], 0, []⟩ := by
    refine ⟨rfl, by simp, List.Forall₂.cons hp0.2 List.Forall₂.nil, ?_, by simp⟩
    intro q hq
    rw [show q = p0 from by simpa using hq]
    exact hp0.1
  obtain ⟨st2, hrun, hinv2, hlen1, hlen2⟩ := yenLoop_master hWF (k - 1).toNat _ hinv0
  refine ⟨st2, ?_, hinv2, ?_, ?_⟩
  · unfold k_shortest_paths
    rw [if_neg hne, hd]
    show (yenLoop w t (k - 1).toNat ⟨G, [l0], [p0], 0, []⟩ >>= fun st =>
      (Except.ok ((st.lengths, st.paths), st.G) :
        Except Err ((List ℕ × List (List Node)) × Graph))) = _
    rw [hrun, ok_bind]
  · simpa using hlen2
  · simpa using hlen1

theorem forall₂_getD {α β : Type} {R : α → β → Prop} {l1 : List α} {l2 : List β}
    (h : List.Forall₂ R l1 l2) (i : ℕ) (hi : i < l1.length) (d1 : α) (d2 : β) :
    R (l1.getD i d1) (l2.getD i d2) := by
  have hlen := h.length_eq
  have h2 := List.Forall₂.get h hi (by omega)
  rw [List.get_eq_getElem, List.get_eq_getElem] at h2
  rw [getD_eq_getElem' d1 hi, getD_eq_getElem' d2 (by omega)]
  exact h2

theorem ksp_st_eq {G : Graph} {s t : Node} {k : ℤ} {w : String} {hst2 : YState}
    {ls : List ℕ} {ps : List (List Node)} {G2 : Graph}
    (h1 : k_shortest_paths G s t k w = .ok ((hst2.lengths, hst2.paths), hst2.G))
    (h2 : k_shortest_paths G s t k w = .ok ((ls, ps), G2)) :
    hst2.lengths = ls ∧ hst2.paths = ps := by
  rw [h1] at h2
  have h3 := Except.ok.inj h2
  exact ⟨congrArg (fun x => x.1.1) h3, congrArg (fun x => x.1.2) h3⟩

theorem ksp_eq_of_source_eq_target {G : Graph} {s : Node} {k : ℤ} {w : String}
    {ls : List ℕ} {ps : List (List Node)} {G2 : Graph}
    (hok : k_shortest_paths G s s k w = .ok ((ls, ps), G2)) :
    ls = [0] ∧ ps = [[s]] := by
  rw [show k_shortest_paths G s s k w = .ok (([0], [[s]]), G) from by
    simp [k_shortest_paths]] at hok
  have h3 := Except.ok.inj hok
  exact ⟨(congrArg (fun x => x.1.1) h3).symm, (congrArg (fun x => x.1.2) h3).symm⟩

theorem ksp_error_of_none {G : Graph} {s t : Node} {k : ℤ} {w : String} (hne : s ≠ t)
    (hd : single_source_dijkstra G s t w = none) :
    k_shortest_paths G s t k w = .error .noPath := by
  unfold k_shortest_paths
  rw [if_neg hne, hd]

/-- Claim C1: every path in the returned `paths` list is loopless — no
node occurs more than once within a single returned path. -/
theorem C1_paths_loopless (G : Graph) (s t : Node) (k : ℤ) (w : String)
    (ls : List ℕ) (ps : List (List Node)) (G2 : Graph) (hWF : G.WF)
    (hok : k_shortest_paths G s t k w = .ok ((ls, ps), G2)) :
    ∀ p ∈ ps, p.Nodup := by
  by_cases hst : s = t
  · subst hst
    obtain ⟨_, hps⟩ := ksp_eq_of_source_eq_target hok
    subst hps
    intro p hp
    rw [show p = [s] from by simpa using hp]
    simp
  · cases hd : single_source_dijkstra G s t w with
    | none =>
        rw [ksp_error_of_none hst hd] at hok
        exact Except.noConfusion hok
    | some pr =>
        obtain ⟨l0, p0⟩ := pr
        obtain ⟨st2, hrun, hinv2, _, _⟩ := ksp_master (k := k) hWF hst hd
        obtain ⟨_, hps⟩ := ksp_st_eq hrun hok
        intro p hp
        exact (hinv2.2.2.2.1 p (hps ▸ hp)).2

theorem C1_paths_loopless_witness :
    ∃ G2, k_shortest_paths P2 0 1 2 "weight" = .ok (([1], [[0, 1]]), G2) ∧
      ∀ p ∈ [[0, 1]], List.Nodup p :=
  ⟨_, rfl, C1_paths_loopless P2 0 1 2 "weight" [1] [[0, 1]] _ P2_WF rfl⟩

/-- Claim C4: every reported `lengths[i]` equals the `get_path_length` of
`paths[i]` on the (restored) input graph — the sum of the weight
attributes of its consecutive edges, an absent attribute counting as 1. -/
theorem C4_lengths_match (G : Graph) (s t : Node) (k : ℤ) (w : String)
    (ls : List ℕ) (ps : List (List Node)) (G2 : Graph) (hWF : G.WF)
    (hok : k_shortest_paths G s t k w = .ok ((ls, ps), G2)) :
    ∀ i < ls.length, ls.getD i 0 = get_path_length G (ps.getD i []) w := by
  by_cases hst : s = t
  · subst hst
    obtain ⟨hls, hps⟩ := ksp_eq_of_source_eq_target hok
    subst hls
    subst hps
    intro i hi
    have hi0 : i = 0 := by simpa using hi
    subst hi0
    simp [get_path_length]
  · cases hd : single_source_dijkstra G s t w with
    | none =>
        rw [ksp_error_of_none hst hd] at hok
        exact Except.noConfusion hok
    | some pr =>
        obtain ⟨l0, p0⟩ := pr
        obtain ⟨st2, hrun, hinv2, _, _⟩ := ksp_master (k := k) hWF hst hd
        obtain ⟨hls, hps⟩ := ksp_st_eq hrun hok
        intro i hi
        have hfa := hinv2.2.2.1
        rw [hls, hps] at hfa
        exact forall₂_getD hfa i hi 0 []

theorem C4_lengths_match_witness :
    ∃ G2, k_shortest_paths P2 0 1 2 "weight" = .ok (([1], [[0, 1]]), G2) ∧
      ([1] : List ℕ).getD 0 0 = get_path_length P2 (([[0, 1]] : List (List Node)).getD 0 []) "weight" :=
  ⟨_, rfl, C4_lengths_match P2 0 1 2 "weight" [1] [[0, 1]] _ P2_WF rfl 0 (by decide)⟩

/-- Claim C7: for `k ≥ 1`, a normal return carries equally long `lengths`
and `paths` lists of between 1 and `k` entries; and when the first oracle
call succeeds the function does return normally (exhausting the candidate
queue early is not an error). -/
theorem C7_result_shape (G : Graph) (s t : Node) (k : ℤ) (w : String) (hWF : G.WF)
    (hk : 1 ≤ k) :
    (∀ ls ps G2, k_shortest_paths G s t k w = .ok ((ls, ps), G2) →
      ls.length = ps.length ∧ 1 ≤ ps.length ∧ ps.length ≤ k.toNat) ∧
    (∀ l0 p0, s ≠ t → single_source_dijkstra G s t w = some (l0, p0) →
      ∃ r, k_shortest_paths G s t k w = .ok r) := by
  constructor
  · intro ls ps G2 hok
    by_cases hst : s = t
    · subst hst
      obtain ⟨hls, hps⟩ := ksp_eq_of_source_eq_target hok
      subst hls
      subst hps
      refine ⟨rfl, by simp, ?_⟩
      simp only [List.length_cons, List.length_nil]
      omega
    · cases hd : single_source_dijkstra G s t w with
      | none =>
          rw [ksp_error_of_none hst hd] at hok
          exact Except.noConfusion hok
      | some pr =>
          obtain ⟨l0, p0⟩ := pr
          obtain ⟨st2, hrun, hinv2, hge, hle⟩ := ksp_master (k := k) hWF hst hd
          obtain ⟨hls, hps⟩ := ksp_st_eq hrun hok
          refine ⟨?_, ?_, ?_⟩
          · rw [← hls, ← hps]
            exact hinv2.2.2.1.length_eq
          · rw [← hps]
            exact hge
          · rw [← hps]
            omega
  · intro l0 p0 hne hd
    obtain ⟨st2, hrun, _, _, _⟩ := ksp_master (k := k) hWF hne hd
    exact ⟨_, hrun⟩

theorem C7_result_shape_witness :
    ([1] : List ℕ).length = ([[0, 1]] : List (List Node)).length ∧
      1 ≤ ([[0, 1]] : List (List Node)).length ∧
      ([[0, 1]] : List (List Node)).length ≤ (2 : ℤ).toNat :=
  (C7_result_shape P2 0 1 2 "weight" P2_WF (by decide)).1 [1] [[0, 1]] _ rfl

/-- Claim C9: the index access `c_path[j + 1]` guarded only by
`len(c_path) > j` is always in bounds, because every accepted path is a
loopless path ending at the target and the spur node is never the target;
the function therefore never raises an index error. -/
theorem C9_no_index_error (G : Graph) (s t : Node) (k : ℤ) (w : String) (hWF : G.WF) :
    k_shortest_paths G s t k w ≠ .error .indexErr := by
  intro h
  by_cases hst : s = t
  · rw [show k_shortest_paths G s t k w = .ok (([0], [[s]]), G) from by
      simp [k_shortest_paths, hst]] at h
    exact Except.noConfusion h
  · cases hd : single_source_dijkstra G s t w with
    | none =>
        rw [ksp_error_of_none hst hd] at h
        exact Err.noConfusion (Except.error.inj h)
    | some pr =>
        obtain ⟨l0, p0⟩ := pr
        obtain ⟨st2, hrun, _, _, _⟩ := ksp_master (k := k) hWF hst hd
        rw [hrun] at h
        exact Except.noConfusion h

theorem C9_no_index_error_witness :
    k_shortest_paths P2 0 1 2 "weight" ≠ .error .indexErr :=
  C9_no_index_error P2 0 1 2 "weight" P2_WF

/-! ## Longest common prefixes -/

theorem lcpLen_nil_left (q : List Node) : lcpLen [] q = 0 := by
  cases q <;> rfl

theorem lcpLen_nil_right (p : List Node) : lcpLen p [] = 0 := by
  cases p <;> rfl

theorem lcpLen_cons_cons (a b : Node) (p q : List Node) :
    lcpLen (a :: p) (b :: q) = if a = b then lcpLen p q + 1 else 0 := rfl

theorem lcpLen_le_left : ∀ (p q : List Node), lcpLen p q ≤ p.length
  | [], q => by rw [lcpLen_nil_left]; simp
  | _ :: _, [] => by rw [lcpLen_nil_right]; simp
  | a :: p, b :: q => by
      rw [lcpLen_cons_cons]
      split
      · have := lcpLen_le_left p q
        simp only [List.length_cons]
        omega
      · simp

theorem lcpLen_le_right : ∀ (p q : List Node), lcpLen p q ≤ q.length
  | [], q => by rw [lcpLen_nil_left]; simp
  | _ :: _, [] => by rw [lcpLen_nil_right]; simp
  | a :: p, b :: q => by
      rw [lcpLen_cons_cons]
      split
      · have := lcpLen_le_right p q
        simp only [List.length_cons]
        omega
      · simp

theorem take_eq_of_le_lcpLen :
    ∀ {p q : List Node} {m : ℕ}, m ≤ lcpLen p q → p.take m = q.take m
  | [], q, m, h => by
      rw [lcpLen_nil_left] at h
      have : m = 0 := by omega
      simp [this]
  | _ :: _, [], m, h => by
      rw [lcpLen_nil_right] at h
      have : m = 0 := by omega
      simp [this]
  | a :: p, b :: q, m, h => by
      rw [lcpLen_cons_cons] at h
      by_cases hab : a = b
      · rw [if_pos hab] at h
        cases m with
        | zero => simp
        | succ m2 =>
            have h2 : m2 ≤ lcpLen p q := by omega
            simp only [List.take_succ_cons, hab]
            rw [take_eq_of_le_lcpLen h2]
      · rw [if_neg hab] at h
        have : m = 0 := by omega
        simp [this]

theorem le_lcpLen_of_take_eq :
    ∀ {p q : List Node} {m : ℕ}, m ≤ p.length → m ≤ q.length →
      p.take m = q.take m → m ≤ lcpLen p q
  | _, _, 0, _, _, _ => by omega
  | [], _, m + 1, hp, _, _ => by simp at hp
  | _ :: _, [], m + 1, _, hq, _ => by simp at hq
  | a :: p, b :: q, m + 1, hp, hq, ht => by
      simp only [List.take_succ_cons, List.cons.injEq] at ht
      rw [lcpLen_cons_cons, if_pos ht.1]
      have := le_lcpLen_of_take_eq (by simpa using hp) (by simpa using hq) ht.2
      omega

theorem getD_ne_at_lcpLen :
    ∀ {p q : List Node}, lcpLen p q < p.length → lcpLen p q < q.length →
      p.getD (lcpLen p q) 0 ≠ q.getD (lcpLen p q) 0
  | [], _, hp, _ => by simp at hp
  | _ :: _, [], _, hq => by simp at hq
  | a :: p, b :: q, hp, hq => by
      by_cases hab : a = b
      · rw [lcpLen_cons_cons, if_pos hab] at hp hq ⊢
        simp only [List.getD_cons_succ]
        exact getD_ne_at_lcpLen (by simpa using hp) (by simpa using hq)
      · rw [lcpLen_cons_cons, if_neg hab] at hp hq ⊢
        simpa using hab

theorem getD_eq_of_lt_lcpLen :
    ∀ {p q : List Node} {i : ℕ} (d : Node), i < lcpLen p q → p.getD i d = q.getD i d
  | [], q, i, d, h => by rw [lcpLen_nil_left] at h; omega
  | _ :: _, [], i, d, h => by rw [lcpLen_nil_right] at h; omega
  | a :: p, b :: q, i, d, h => by
      rw [lcpLen_cons_cons] at h
      by_cases hab : a = b
      · rw [if_pos hab] at h
        cases i with
        | zero => simpa using hab
        | succ i2 =>
            simp only [List.getD_cons_succ]
            exact getD_eq_of_lt_lcpLen d (by omega)
      · rw [if_neg hab] at h
        omega

theorem one_le_lcpLen_of_head {p q : List Node} {x : Node}
    (hp : p.head? = some x) (hq : q.head? = some x) : 1 ≤ lcpLen p q := by
  cases p with
  | nil => exact Option.noConfusion hp
  | cons a p2 =>
      cases q with
      | nil => exact Option.noConfusion hq
      | cons b q2 =>
          have ha : a = x := by simpa using hp
          have hb : b = x := by simpa using hq
          rw [lcpLen_cons_cons, if_pos (ha.trans hb.symm)]
          omega

theorem lcpLen_le_maxLcp {Q p : List Node} :
    ∀ {ps : List (List Node)}, p ∈ ps → lcpLen Q p ≤ maxLcp Q ps
  | [], h => by cases h
  | r :: ps, h => by
      rw [maxLcp]
      rcases List.mem_cons.mp h with rfl | h2
      · exact le_max_left _ _
      · exact le_trans (lcpLen_le_maxLcp h2) (le_max_right _ _)

theorem maxLcp_mem {Q : List Node} :
    ∀ {ps : List (List Node)}, ps ≠ [] → ∃ p ∈ ps, lcpLen Q p = maxLcp Q ps
  | [], h => absurd rfl h
  | r :: ps, _ => by
      rw [maxLcp]
      cases ps with
      | nil =>
          refine ⟨r, by simp, ?_⟩
          rw [maxLcp]
          simp
      | cons r2 ps2 =>
          obtain ⟨p, hp, hpe⟩ := maxLcp_mem (Q := Q) (List.cons_ne_nil r2 ps2)
          rcases le_total (maxLcp Q (r2 :: ps2)) (lcpLen Q r) with hle | hle
          · exact ⟨r, by simp, (max_eq_left hle).symm⟩
          · exact ⟨p, List.mem_cons_of_mem r hp, hpe.trans (max_eq_right hle).symm⟩

theorem maxLcp_concat (Q p : List Node) (ps : List (List Node)) :
    maxLcp Q (ps ++ [p]) = max (maxLcp Q ps) (lcpLen Q p) := by
  induction ps with
  | nil =>
      rw [List.nil_append, maxLcp, maxLcp, maxLcp]
      simp [Nat.max_comm]
  | cons r ps ih =>
      rw [List.cons_append, maxLcp, ih, maxLcp, Nat.max_assoc]

/-! ## The heap pop: minimality and membership of the remainder -/

theorem popSmallest_eq_none : ∀ {B : List Cand}, popSmallest B = none → B = []
  | [], _ => rfl
  | x :: xs, h => by
      rw [popSmallest] at h
      cases hp : popSmallest xs with
      | none =>
          rw [hp] at h
          have h' : some (x, ([] : List Cand)) = none := h
          exact Option.noConfusion h'
      | some pr =>
          obtain ⟨m, rest⟩ := pr
          rw [hp] at h
          have h' : (if m.1 < x.1 ∨ (m.1 = x.1 ∧ m.2.1 < x.2.1) then some (m, x :: rest)
              else some (x, xs)) = (none : Option (Cand × List Cand)) := h
          by_cases hlt : m.1 < x.1 ∨ (m.1 = x.1 ∧ m.2.1 < x.2.1)
          · rw [if_pos hlt] at h'
            exact Option.noConfusion h'
          · rw [if_neg hlt] at h'
            exact Option.noConfusion h'

theorem popSmallest_min :
    ∀ {B : List Cand} {c : Cand} {B2 : List Cand},
      popSmallest B = some (c, B2) → ∀ y ∈ B, c.1 ≤ y.1
  | [], c, B2, h => by cases h
  | x :: xs, c, B2, h => by
      rw [popSmallest] at h
      cases hp : popSmallest xs with
      | none =>
          rw [hp] at h
          injection Option.some.inj h with e1 e2
          have hxs : xs = [] := popSmallest_eq_none hp
          subst hxs
          intro y hy
          rw [show y = x from by simpa using hy, ← e1]
      | some pr =>
          obtain ⟨m, rest⟩ := pr
          rw [hp] at h
          have ih := popSmallest_min hp
          have h' : (if m.1 < x.1 ∨ (m.1 = x.1 ∧ m.2.1 < x.2.1) then some (m, x :: rest)
              else some (x, xs)) = some (c, B2) := h
          by_cases hlt : m.1 < x.1 ∨ (m.1 = x.1 ∧ m.2.1 < x.2.1)
          · rw [if_pos hlt] at h'
            injection Option.some.inj h' with e1 e2
            subst e1
            intro y hy
            rcases List.mem_cons.mp hy with rfl | hy2
            · rcases hlt with h3 | h3
              · omega
              · omega
            · exact ih y hy2
          · rw [if_neg hlt] at h'
            injection Option.some.inj h' with e1 e2
            subst e1
            intro y hy
            rcases List.mem_cons.mp hy with rfl | hy2
            · exact le_rfl
            · have hxm : x.1 ≤ m.1 := by omega
              exact le_trans hxm (ih y hy2)

theorem popSmallest_ne_mem :
    ∀ {B : List Cand} {c : Cand} {B2 : List Cand},
      popSmallest B = some (c, B2) → ∀ y ∈ B, y ≠ c → y ∈ B2
  | [], c, B2, h => by cases h
  | x :: xs, c, B2, h => by
      rw [popSmallest] at h
      cases hp : popSmallest xs with
      | none =>
          rw [hp] at h
          injection Option.some.inj h with e1 e2
          intro y hy hne
          have hxs : xs = [] := popSmallest_eq_none hp
          subst hxs
          exact absurd ((by simpa using hy : y = x).trans e1) hne
      | some pr =>
          obtain ⟨m, rest⟩ := pr
          rw [hp] at h
          have ih := popSmallest_ne_mem hp
          have h' : (if m.1 < x.1 ∨ (m.1 = x.1 ∧ m.2.1 < x.2.1) then some (m, x :: rest)
              else some (x, xs)) = some (c, B2) := h
          by_cases hlt : m.1 < x.1 ∨ (m.1 = x.1 ∧ m.2.1 < x.2.1)
          · rw [if_pos hlt] at h'
            injection Option.some.inj h' with e1 e2
            subst e1
            subst e2
            intro y hy hne
            rcases List.mem_cons.mp hy with rfl | hy2
            · simp
            · exact List.mem_cons_of_mem x (ih y hy2 hne)
          · rw [if_neg hlt] at h'
            injection Option.some.inj h' with e1 e2
            subst e1
            subst e2
            intro y hy hne
            rcases List.mem_cons.mp hy with rfl | hy2
            · exact absurd rfl hne
            · exact hy2

/-! ## Pointwise effect of the shared-prefix exclusion step -/

theorem sharedStep_directed {j : ℕ} {root : List Node} {st st2 : Graph × List EdgeRec}
    {cp : List Node} (h : sharedStep j root st cp = .ok st2) :
    st2.1.directed = st.1.directed := by
  unfold sharedStep at h
  split at h
  · cases hu : cp[j]? with
    | none =>
        rw [hu] at h
        have h' : (Except.error Err.indexErr : Except Err (Graph × List EdgeRec)) = .ok st2 := h
        exact Except.noConfusion h'
    | some u =>
        cases hv : cp[j + 1]? with
        | none =>
            rw [hu, hv] at h
            have h' : (Except.error Err.indexErr : Except Err (Graph × List EdgeRec)) =
              .ok st2 := h
            exact Except.noConfusion h'
        | some v =>
            rw [hu, hv] at h
            have h' : (if st.1.hasEdge u v = true then
                (Except.ok (st.1.removeEdge u v, st.2 ++ [(u, v, st.1.edgeData u v)]) :
                  Except Err (Graph × List EdgeRec))
              else .ok st) = .ok st2 := h
            by_cases hhe : st.1.hasEdge u v = true
            · rw [if_pos hhe] at h'
              rw [← Except.ok.inj h']
              simp
            · rw [if_neg hhe] at h'
              rw [← Except.ok.inj h']
  · rw [← Except.ok.inj h]

theorem sharedStep_adj_cases {j : ℕ} {root : List Node} {st st2 : Graph × List EdgeRec}
    {cp : List Node} (h : sharedStep j root st cp = .ok st2) (a b : Node) :
    st2.1.adj a b = st.1.adj a b ∨
      (cp.length > j ∧ root = cp.take (j + 1) ∧
        ((a = cp.getD j 0 ∧ b = cp.getD (j + 1) 0) ∨
         (st.1.directed = false ∧ a = cp.getD (j + 1) 0 ∧ b = cp.getD j 0))) := by
  unfold sharedStep at h
  split at h
  · rename_i hg
    cases hu : cp[j]? with
    | none =>
        rw [hu] at h
        have h' : (Except.error Err.indexErr : Except Err (Graph × List EdgeRec)) = .ok st2 := h
        exact Except.noConfusion h'
    | some u =>
        cases hv : cp[j + 1]? with
        | none =>
            rw [hu, hv] at h
            have h' : (Except.error Err.indexErr : Except Err (Graph × List EdgeRec)) =
              .ok st2 := h
            exact Except.noConfusion h'
        | some v =>
            rw [hu, hv] at h
            have hju : j < cp.length := hg.1
            have hjv : j + 1 < cp.length := (List.getElem?_eq_some_iff.mp hv).1
            have hue : u = cp.getD j 0 := by
              rw [getD_eq_getElem' 0 hju]
              exact (List.getElem?_eq_some_iff.mp hu).2.symm
            have hve : v = cp.getD (j + 1) 0 := by
              rw [getD_eq_getElem' 0 hjv]
              exact (List.getElem?_eq_some_iff.mp hv).2.symm
            have h' : (if st.1.hasEdge u v = true then
                (Except.ok (st.1.removeEdge u v, st.2 ++ [(u, v, st.1.edgeData u v)]) :
                  Except Err (Graph × List EdgeRec))
              else .ok st) = .ok st2 := h
            by_cases hhe : st.1.hasEdge u v = true
            · rw [if_pos hhe] at h'
              have hst2 : st2 = (st.1.removeEdge u v, st.2 ++ [(u, v, st.1.edgeData u v)]) :=
                (Except.ok.inj h').symm
              rw [hst2]
              show (st.1.removeEdge u v).adj a b = st.1.adj a b ∨ _
              rw [Graph.adj_removeEdge]
              by_cases hpat : (a = u ∧ b = v) ∨ (¬ st.1.directed = true ∧ a = v ∧ b = u)
              · refine Or.inr ⟨hg.1, hg.2, ?_⟩
                rcases hpat with ⟨ha, hb⟩ | ⟨hdir, ha, hb⟩
                · exact Or.inl ⟨ha.trans hue, hb.trans hve⟩
                · exact Or.inr ⟨by simpa using hdir, ha.trans hve, hb.trans hue⟩
              · rw [if_neg hpat]
                exact Or.inl rfl
            · rw [if_neg hhe] at h'
              rw [← Except.ok.inj h']
              exact Or.inl rfl
  · rw [← Except.ok.inj h]
    exact Or.inl rfl

theorem sharedStep_none_mono {j : ℕ} {root : List Node} {st st2 : Graph × List EdgeRec}
    {cp : List Node} (h : sharedStep j root st cp = .ok st2) {a b : Node}
    (hn : st.1.adj a b = none) : st2.1.adj a b = none := by
  unfold sharedStep at h
  split at h
  · cases hu : cp[j]? with
    | none =>
        rw [hu] at h
        have h' : (Except.error Err.indexErr : Except Err (Graph × List EdgeRec)) = .ok st2 := h
        exact Except.noConfusion h'
    | some u =>
        cases hv : cp[j + 1]? with
        | none =>
            rw [hu, hv] at h
            have h' : (Except.error Err.indexErr : Except Err (Graph × List EdgeRec)) =
              .ok st2 := h
            exact Except.noConfusion h'
        | some v =>
            rw [hu, hv] at h
            have h' : (if st.1.hasEdge u v = true then
                (Except.ok (st.1.removeEdge u v, st.2 ++ [(u, v, st.1.edgeData u v)]) :
                  Except Err (Graph × List EdgeRec))
              else .ok st) = .ok st2 := h
            by_cases hhe : st.1.hasEdge u v = true
            · rw [if_pos hhe] at h'
              rw [← Except.ok.inj h']
              exact Graph.removeEdge_adj_none hn u v
            · rw [if_neg hhe] at h'
              rw [← Except.ok.inj h']
              exact hn
  · rw [← Except.ok.inj h]
    exact hn

theorem sharedStep_removes {j : ℕ} {root : List Node} {st st2 : Graph × List EdgeRec}
    {cp : List Node} (h : sharedStep j root st cp = .ok st2)
    (hlen : cp.length > j) (hpre : root = cp.take (j + 1)) :
    st2.1.adj (cp.getD j 0) (cp.getD (j + 1) 0) = none := by
  unfold sharedStep at h
  rw [if_pos ⟨hlen, hpre⟩] at h
  cases hu : cp[j]? with
  | none =>
      rw [hu] at h
      have h' : (Except.error Err.indexErr : Except Err (Graph × List EdgeRec)) = .ok st2 := h
      exact Except.noConfusion h'
  | some u =>
      cases hv : cp[j + 1]? with
      | none =>
          rw [hu, hv] at h
          have h' : (Except.error Err.indexErr : Except Err (Graph × List EdgeRec)) =
            .ok st2 := h
          exact Except.noConfusion h'
      | some v =>
          rw [hu, hv] at h
          have hjv : j + 1 < cp.length := (List.getElem?_eq_some_iff.mp hv).1
          have hue : cp.getD j 0 = u := by
            rw [getD_eq_getElem' 0 hlen]
            exact (List.getElem?_eq_some_iff.mp hu).2
          have hve : cp.getD (j + 1) 0 = v := by
            rw [getD_eq_getElem' 0 hjv]
            exact (List.getElem?_eq_some_iff.mp hv).2
          rw [hue, hve]
          have h' : (if st.1.hasEdge u v = true then
              (Except.ok (st.1.removeEdge u v, st.2 ++ [(u, v, st.1.edgeData u v)]) :
                Except Err (Graph × List EdgeRec))
            else .ok st) = .ok st2 := h
          by_cases hhe : st.1.hasEdge u v = true
          · rw [if_pos hhe] at h'
            rw [← Except.ok.inj h']
            exact Graph.adj_removeEdge_self st.1 u v
          · rw [if_neg hhe] at h'
            rw [← Except.ok.inj h']
            simp only [Graph.hasEdge] at hhe
            exact Option.not_isSome_iff_eq_none.mp (by simpa using hhe)

theorem foldlM_sharedStep_directed {j : ℕ} {root : List Node} :
    ∀ {ps : List (List Node)} {st st2 : Graph × List EdgeRec},
      List.foldlM (sharedStep j root) st ps = .ok st2 →
      st2.1.directed = st.1.directed
  | [], st, st2, h => by rw [← Except.ok.inj h]
  | cp :: ps, st, st2, h => by
      rw [List.foldlM_cons] at h
      cases hstep : sharedStep j root st cp with
      | error e =>
          rw [hstep] at h
          have h' : (Except.error e : Except Err (Graph × List EdgeRec)) = .ok st2 := h
          exact Except.noConfusion h'
      | ok st1 =>
          rw [hstep, ok_bind] at h
          exact (foldlM_sharedStep_directed h).trans (sharedStep_directed hstep)

theorem foldlM_sharedStep_none_mono {j : ℕ} {root : List Node} :
    ∀ {ps : List (List Node)} {st st2 : Graph × List EdgeRec},
      List.foldlM (sharedStep j root) st ps = .ok st2 →
      ∀ {a b : Node}, st.1.adj a b = none → st2.1.adj a b = none
  | [], st, st2, h, a, b, hn => by rw [← Except.ok.inj h]; exact hn
  | cp :: ps, st, st2, h, a, b, hn => by
      rw [List.foldlM_cons] at h
      cases hstep : sharedStep j root st cp with
      | error e =>
          rw [hstep] at h
          have h' : (Except.error e : Except Err (Graph × List EdgeRec)) = .ok st2 := h
          exact Except.noConfusion h'
      | ok st1 =>
          rw [hstep, ok_bind] at h
          exact foldlM_sharedStep_none_mono h (sharedStep_none_mono hstep hn)

theorem foldlM_sharedStep_adj {j : ℕ} {root : List Node} :
    ∀ {ps : List (List Node)} {st st2 : Graph × List EdgeRec},
      List.foldlM (sharedStep j root) st ps = .ok st2 →
      ∀ a b : Node, st2.1.adj a b = st.1.adj a b ∨
        ∃ p ∈ ps, p.length > j ∧ root = p.take (j + 1) ∧
          ((a = p.getD j 0 ∧ b = p.getD (j + 1) 0) ∨
           (st.1.directed = false ∧ a = p.getD (j + 1) 0 ∧ b = p.getD j 0))
  | [], st, st2, h, a, b => by rw [← Except.ok.inj h]; exact Or.inl rfl
  | cp :: ps, st, st2, h, a, b => by
      rw [List.foldlM_cons] at h
      cases hstep : sharedStep j root st cp with
      | error e =>
          rw [hstep] at h
          have h' : (Except.error e : Except Err (Graph × List EdgeRec)) = .ok st2 := h
          exact Except.noConfusion h'
      | ok st1 =>
          rw [hstep, ok_bind] at h
          have hdir1 : st1.1.directed = st.1.directed := sharedStep_directed hstep
          rcases foldlM_sharedStep_adj h a b with h1 | ⟨p, hp, hc1, hc2, hc3⟩
          · rcases sharedStep_adj_cases hstep a b with h2 | ⟨hc1, hc2, hc3⟩
            · exact Or.inl (h1.trans h2)
            · exact Or.inr ⟨cp, by simp, hc1, hc2, hc3⟩
          · refine Or.inr ⟨p, List.mem_cons_of_mem cp hp, hc1, hc2, ?_⟩
            rcases hc3 with h3 | ⟨hd, h3⟩
            · exact Or.inl h3
            · exact Or.inr ⟨hdir1 ▸ hd, h3⟩

theorem foldlM_sharedStep_removes {j : ℕ} {root : List Node} :
    ∀ {ps : List (List Node)} {st st2 : Graph × List EdgeRec},
      List.foldlM (sharedStep j root) st ps = .ok st2 →
      ∀ p ∈ ps, p.length > j → root = p.take (j + 1) →
        st2.1.adj (p.getD j 0) (p.getD (j + 1) 0) = none
  | [], st, st2, h, p, hp, _, _ => by cases hp
  | cp :: ps, st, st2, h, p, hp, hlen, hpre => by
      rw [List.foldlM_cons] at h
      cases hstep : sharedStep j root st cp with
      | error e =>
          rw [hstep] at h
          have h' : (Except.error e : Except Err (Graph × List EdgeRec)) = .ok st2 := h
          exact Except.noConfusion h'
      | ok st1 =>
          rw [hstep, ok_bind] at h
          rcases List.mem_cons.mp hp with rfl | hp2
          · exact foldlM_sharedStep_none_mono h (sharedStep_removes hstep hlen hpre)
          · exact foldlM_sharedStep_removes h p hp2 hlen hpre

/-! ## Pointwise preservation by the root-interior exclusion -/

theorem removeOutList_adj_untouched {node a b : Node} (ha : a ≠ node) (hb : b ≠ node) :
    ∀ (l : List Node) (st : Graph × List EdgeRec),
      (removeOutList node l st).1.adj a b = st.1.adj a b
  | [], _ => rfl
  | v :: vs, st => by
      rw [removeOutList, removeOutList_adj_untouched ha hb vs]
      show (st.1.removeEdge node v).adj a b = st.1.adj a b
      rw [Graph.adj_removeEdge, if_neg]
      rintro (⟨han, _⟩ | ⟨_, _, hbn⟩)
      · exact ha han
      · exact hb hbn

theorem removeInList_adj_untouched {node a b : Node} (ha : a ≠ node) (hb : b ≠ node) :
    ∀ (l : List Node) (st : Graph × List EdgeRec),
      (removeInList node l st).1.adj a b = st.1.adj a b
  | [], _ => rfl
  | u :: us, st => by
      rw [removeInList, removeInList_adj_untouched ha hb us]
      show (st.1.removeEdge u node).adj a b = st.1.adj a b
      rw [Graph.adj_removeEdge, if_neg]
      rintro (⟨_, hbn⟩ | ⟨_, han, _⟩)
      · exact hb hbn
      · exact ha han

theorem removeNodeEdges_adj_untouched {node a b : Node} {st : Graph × List EdgeRec}
    (ha : a ≠ node) (hb : b ≠ node) :
    (removeNodeEdges st node).1.adj a b = st.1.adj a b := by
  rw [removeNodeEdges]
  split
  · exact (removeInList_adj_untouched ha hb _ _).trans
      (removeOutList_adj_untouched ha hb _ _)
  · exact removeOutList_adj_untouched ha hb _ _

theorem foldl_removeNodeEdges_adj_untouched {a b : Node} :
    ∀ (l : List Node) (st : Graph × List EdgeRec), a ∉ l → b ∉ l →
      ((l.foldl removeNodeEdges st).1).adj a b = st.1.adj a b
  | [], _, _, _ => rfl
  | x :: l, st, ha, hb => by
      rw [List.foldl_cons,
        foldl_removeNodeEdges_adj_untouched l _ (fun h => ha (by simp [h]))
          (fun h => hb (by simp [h]))]
      exact removeNodeEdges_adj_untouched (fun h => ha (by simp [h]))
        (fun h => hb (by simp [h]))

/-! ## Index-level helpers for loopless paths -/

theorem nodup_getD_inj {L : List Node} (hn : L.Nodup) {i j : ℕ} (hi : i < L.length)
    (hj : j < L.length) (h : L.getD i 0 = L.getD j 0) : i = j := by
  have h1 : L.get ⟨i, hi⟩ = L.get ⟨j, hj⟩ := by
    rw [List.get_eq_getElem, List.get_eq_getElem, ← getD_eq_getElem' 0 hi,
      ← getD_eq_getElem' 0 hj]
    exact h
  have h2 := (List.Nodup.get_inj_iff hn).mp h1
  simpa using h2

theorem getD_last {l : List Node} {t : Node} (h : l.getLast? = some t) :
    l.getD (l.length - 1) 0 = t := by
  have hne : l ≠ [] := by intro h0; rw [h0] at h; exact Option.noConfusion h
  have hpos : 0 < l.length := List.length_pos.mpr hne
  rw [getD_eq_getElem' 0 (by omega), ← List.getLast_eq_getElem l hne]
  rw [List.getLast?_eq_getLast_of_ne_nil hne] at h
  exact Option.some.inj h

theorem getD_take {l : List Node} {n i : ℕ} (d : Node) (h : i < n) :
    (l.take n).getD i d = l.getD i d := by
  simp [List.getD_eq_getElem?_getD, List.getElem?_take, h]

theorem getD_drop {l : List Node} {n i : ℕ} (d : Node) :
    (l.drop n).getD i d = l.getD (n + i) d := by
  rw [List.getD_eq_getElem?_getD, List.getD_eq_getElem?_getD, List.getElem?_drop l n i]

theorem mem_take_getD {l : List Node} {n : ℕ} {x : Node} (h : x ∈ l.take n) :
    ∃ k, k < n ∧ k < l.length ∧ l.getD k 0 = x := by
  obtain ⟨k, hk⟩ := List.mem_iff_getElem?.mp h
  rw [List.getElem?_take] at hk
  by_cases hkn : k < n
  · rw [if_pos hkn] at hk
    have hkl : k < l.length := (List.getElem?_eq_some_iff.mp hk).1
    refine ⟨k, hkn, hkl, ?_⟩
    rw [getD_eq_getElem' 0 hkl]
    exact (List.getElem?_eq_some_iff.mp hk).2
  · rw [if_neg hkn] at hk
    exact Option.noConfusion hk

theorem take_one_of_head? {l : List Node} {x : Node} (h : l.head? = some x) :
    l.take 1 = [x] := by
  cases l with
  | nil => exact Option.noConfusion h
  | cons a l2 => simpa using (by simpa using h : a = x)

theorem chain'_getD_of {R : Node → Node → Prop} {l : List Node} (h : l.Chain' R)
    {i : ℕ} (hi : i + 1 < l.length) : R (l.getD i 0) (l.getD (i + 1) 0) := by
  have h2 := List.chain'_iff_get.mp h i (by omega)
  simp only [List.get_eq_getElem] at h2
  simpa [List.getD_eq_getElem?_getD, List.getElem?_eq_getElem, hi,
    (by omega : i < l.length)] using h2

theorem chain'_of_getD {R : Node → Node → Prop} {l : List Node}
    (h : ∀ i, i + 1 < l.length → R (l.getD i 0) (l.getD (i + 1) 0)) : l.Chain' R := by
  rw [List.chain'_iff_get]
  intro i hi
  have h2 := h i (by omega)
  simp only [List.get_eq_getElem]
  simpa [List.getD_eq_getElem?_getD, List.getElem?_eq_getElem, (by omega : i + 1 < l.length),
    (by omega : i < l.length)] using h2

theorem lcpLen_comm : ∀ (p q : List Node), lcpLen p q = lcpLen q p
  | [], q => by rw [lcpLen_nil_left, lcpLen_nil_right]
  | _ :: _, [] => by rw [lcpLen_nil_left, lcpLen_nil_right]
  | a :: p, b :: q => by
      rw [lcpLen_cons_cons, lcpLen_cons_cons]
      by_cases hab : a = b
      · rw [if_pos hab, if_pos hab.symm, lcpLen_comm p q]
      · rw [if_neg hab, if_neg fun h => hab h.symm]

theorem lcpLen_lt_of_good {G0 : Graph} {s t : Node} {Q L : List Node}
    (hQ : GoodPath G0 s t Q) (hL : GoodPath G0 s t L) (hne : Q ≠ L) :
    lcpLen Q L < Q.length ∧ lcpLen Q L < L.length := by
  have key : ∀ {A B : List Node}, GoodPath G0 s t A → GoodPath G0 s t B →
      lcpLen A B = A.length → A.length < B.length → False := by
    intro A B hA hB hlcp hlen
    have hAne : A ≠ [] := by
      intro h0; rw [h0] at hA; exact Option.noConfusion hA.1.1
    have hApos : 0 < A.length := List.length_pos.mpr hAne
    have htakeAB : A.take A.length = B.take A.length := by
      refine take_eq_of_le_lcpLen ?_
      rw [hlcp]
    have hAeq : A = B.take A.length := by
      rw [← htakeAB, List.take_length]
    have h1 : B.getD (A.length - 1) 0 = t := by
      rw [← getD_take 0 (by omega : A.length - 1 < A.length), ← hAeq]
      exact getD_last hA.1.2.1
    have h2 : B.getD (B.length - 1) 0 = t := getD_last hB.1.2.1
    have h3 : A.length - 1 = B.length - 1 :=
      nodup_getD_inj hB.2 (by omega) (by omega) (h1.trans h2.symm)
    omega
  have hleQ := lcpLen_le_left Q L
  have hleL := lcpLen_le_right Q L
  rcases lt_or_eq_of_le hleQ with h1 | h1
  · rcases lt_or_eq_of_le hleL with h2 | h2
    · exact ⟨h1, h2⟩
    · exfalso
      have hllen : L.length < Q.length := by omega
      exact key hL hQ (by rw [lcpLen_comm]; exact h2) hllen
  · exfalso
    rcases lt_or_eq_of_le hleL with h2 | h2
    · exact key hQ hL h1 (by omega)
    · refine hne ?_
      have htake : Q.take (lcpLen Q L) = L.take (lcpLen Q L) := take_eq_of_le_lcpLen le_rfl
      have hlen : Q.length = L.length := h1.symm.trans h2
      rw [h1, List.take_length, hlen, List.take_length] at htake
      exact htake

/-! ## The spur scan recreates a heap witness for any missing loopless path -/

theorem spurIteration_witness {G0 : Graph} {s t : Node} {w : String} {ps : List (List Node)}
    {L Q : List Node} {M j : ℕ} (hWF : G0.WF)
    (hps_good : ∀ p ∈ ps, GoodPath G0 s t p)
    (hLmem : L ∈ ps) (hQ : GoodPath G0 s t Q) (hQnot : Q ∉ ps)
    (hmax : ∀ p ∈ ps, lcpLen Q p ≤ M) (hML : M = lcpLen Q L) (hjM : j + 1 = M)
    (cnt : ℕ) (B : List Cand) :
    ∃ cnt2 B2, spurIteration w t ps L (G0, cnt, B) j = .ok (G0, cnt2, B2) ∧
      ∃ c ∈ B2, c.1 ≤ get_path_length G0 Q w ∧ M ≤ lcpLen Q c.2.2 := by
  have hL : GoodPath G0 s t L := hps_good L hLmem
  have hQL : Q ≠ L := fun h => hQnot (h ▸ hLmem)
  obtain ⟨hMQ', hML'⟩ := lcpLen_lt_of_good hQ hL hQL
  have hMQ : M < Q.length := hML ▸ hMQ'
  have hMLlen : M < L.length := hML ▸ hML'
  have hjQ : j < Q.length := by omega
  have hjL : j < L.length := by omega
  have hj : j < L.length - 1 := by omega
  have htakeM : Q.take M = L.take M := take_eq_of_le_lcpLen (le_of_eq hML)
  have htakej : Q.take j = L.take j :=
    take_eq_of_le_lcpLen (show j ≤ lcpLen Q L from by rw [← hML]; omega)
  have hspurQ : Q.getD j 0 = L.getD j 0 :=
    getD_eq_of_lt_lcpLen 0 (show j < lcpLen Q L from by rw [← hML]; omega)
  have hroot_eqQ : L.take (j + 1) = Q.take M := by rw [hjM, htakeM]
  have hdropLast : (L.take (j + 1)).dropLast = L.take j := by
    rw [take_succ_getD hjL, List.dropLast_concat]
  have hspur_ne : L.getD j 0 ≠ t := spur_ne_target hL.2 hL.1.2.1 hj
  have hps_last : ∀ cp ∈ ps, cp.getLast? = some t := fun cp hcp => (hps_good cp hcp).1.2.1
  obtain ⟨⟨G1, removed1⟩, hfold⟩ :=
    foldlM_sharedStep_ok hjL hspur_ne ps hps_last (G0, ([] : List EdgeRec))
  rcases hst2 : (L.take (j + 1)).dropLast.foldl removeNodeEdges (G1, removed1) with
    ⟨G2, removed2⟩
  have hres1 : restores G0 G1 removed1 :=
    foldlM_sharedStep_restores ps (restores_init hWF) hfold
  have hres2 : restores G0 G2 removed2 := by
    have h := foldl_removeNodeEdges_restores hWF ((L.take (j + 1)).dropLast)
      (G1, removed1) hres1
    rw [hst2] at h
    exact h
  have hagree := restores_sub hres2
  have hnodes2 : G2.nodes = G0.nodes := hres2.2.2.2.1
  have hG3 : G2.add_edges_from removed2 = G0 := hres2.1
  have hpres : ∀ i, j ≤ i → i + 1 < Q.length →
      G2.adj (Q.getD i 0) (Q.getD (i + 1) 0) = G0.adj (Q.getD i 0) (Q.getD (i + 1) 0) := by
    intro i hji hi1
    have hnotin1 : Q.getD i 0 ∉ (L.take (j + 1)).dropLast := by
      rw [hdropLast, ← htakej]
      intro hmem
      obtain ⟨k, hk1, hk2, hk3⟩ := mem_take_getD hmem
      have := nodup_getD_inj hQ.2 hk2 (show i < Q.length from by omega) hk3
      omega
    have hnotin2 : Q.getD (i + 1) 0 ∉ (L.take (j + 1)).dropLast := by
      rw [hdropLast, ← htakej]
      intro hmem
      obtain ⟨k, hk1, hk2, hk3⟩ := mem_take_getD hmem
      have := nodup_getD_inj hQ.2 hk2 hi1 hk3
      omega
    have h21 : G2.adj (Q.getD i 0) (Q.getD (i + 1) 0) =
        G1.adj (Q.getD i 0) (Q.getD (i + 1) 0) := by
      have h := foldl_removeNodeEdges_adj_untouched ((L.take (j + 1)).dropLast)
        (G1, removed1) hnotin1 hnotin2
      rw [hst2] at h
      exact h
    rw [h21]
    rcases foldlM_sharedStep_adj hfold (Q.getD i 0) (Q.getD (i + 1) 0) with
      h1 | ⟨p, hp, hlenp, hprep, hpat⟩
    · exact h1
    · exfalso
      have hpQ : Q ≠ p := fun h => hQnot (h ▸ hp)
      have hlcpp_lt := lcpLen_lt_of_good hQ (hps_good p hp) hpQ
      have hplen : M ≤ p.length := by omega
      have h2 : Q.take M = p.take (j + 1) := by rw [← hprep, hroot_eqQ]
      rw [hjM] at h2
      have hlcpQp : lcpLen Q p = M := by
        have hle := hmax p hp
        have hge : M ≤ lcpLen Q p := le_lcpLen_of_take_eq (by omega) hplen h2
        omega
      have hgDjp : Q.getD j 0 = p.getD j 0 :=
        getD_eq_of_lt_lcpLen 0 (show j < lcpLen Q p from by rw [hlcpQp]; omega)
      rcases hpat with ⟨ha, hb⟩ | ⟨_, ha, hb⟩
      · have hij : i = j := nodup_getD_inj hQ.2 (by omega) hjQ (ha.trans hgDjp.symm)
        have hne := getD_ne_at_lcpLen hlcpp_lt.1 hlcpp_lt.2
        rw [hlcpQp] at hne
        rw [hij, hjM] at hb
        exact hne hb
      · have hj1 : i + 1 = j := nodup_getD_inj hQ.2 hi1 hjQ (hb.trans hgDjp.symm)
        omega
  have hSne : Q.drop j ≠ [] := by
    intro h0
    have := congrArg List.length h0
    simp only [List.length_drop, List.length_nil] at this
    omega
  have hShead : (Q.drop j).head? = some (L.getD j 0) :=
    calc (Q.drop j).head? = Q[j]? := List.head?_drop Q j
      _ = some (Q.getD j 0) := by
          rw [List.getElem?_eq_getElem hjQ, getD_eq_getElem' 0 hjQ]
      _ = some (L.getD j 0) := by rw [hspurQ]
  have hSlast : (Q.drop j).getLast? = some t := by
    have h0 : Q.getLast? = some t := hQ.1.2.1
    rw [← List.take_append_drop j Q, List.getLast?_append_of_ne_nil _ hSne] at h0
    exact h0
  have hSnodup : (Q.drop j).Nodup := (List.drop_sublist j Q).nodup hQ.2
  have hSchain : (Q.drop j).Chain' (fun u v => v ∈ G2.successors u) := by
    refine chain'_of_getD ?_
    intro i hi1
    rw [getD_drop 0, getD_drop 0, show j + (i + 1) = j + i + 1 from rfl]
    have hji1 : j + i + 1 < Q.length := by
      rw [List.length_drop] at hi1
      omega
    have hbase : Q.getD (j + i + 1) 0 ∈ G0.successors (Q.getD (j + i) 0) :=
      chain'_getD_of hQ.1.2.2 hji1
    have hadj := hpres (j + i) (by omega) hji1
    rw [mem_successors] at hbase ⊢
    exact ⟨by rw [hnodes2]; exact hbase.1, by rw [hadj]; exact hbase.2⟩
  have hSgood : GoodPath G2 (L.getD j 0) t (Q.drop j) := ⟨⟨hShead, hSlast, hSchain⟩, hSnodup⟩
  obtain ⟨spl, spp, hdij⟩ := sssd_some_of_good w hSgood
  have hsppProps := sssd_some_props hdij
  have hspl_le : spl ≤ get_path_length G2 (Q.drop j) w := sssd_min hdij hSgood
  have hgplS : get_path_length G2 (Q.drop j) w = get_path_length G0 (Q.drop j) w :=
    gpl_eq_of_agree hagree w (chain_step_isSome hSchain)
  have hsppne : spp ≠ [] := by
    intro h0
    rw [h0] at hsppProps
    exact Option.noConfusion hsppProps.1.1.1
  have hEp : ¬ spp.isEmpty := by
    intro hcon
    exact hsppne (by simpa using hcon)
  refine ⟨cnt + 1, B ++ [(get_path_length G0 (L.take (j + 1)) w + spl, cnt,
      (L.take (j + 1)).dropLast ++ spp)], ?_, ?_⟩
  · rw [spurIteration_eval_some hfold hst2 hdij, if_neg hEp, hG3]
  · refine ⟨(get_path_length G0 (L.take (j + 1)) w + spl, cnt,
      (L.take (j + 1)).dropLast ++ spp), by simp, ?_, ?_⟩
    · show get_path_length G0 (L.take (j + 1)) w + spl ≤ get_path_length G0 Q w
      have hdropQ : Q.drop j = Q.getD j 0 :: Q.drop (j + 1) := by
        rw [getD_eq_getElem' 0 hjQ]
        exact List.drop_eq_getElem_cons hjQ
      have h1 := gpl_append G0 w (Q.take j) (Q.getD j 0) (Q.drop (j + 1))
      rw [← take_succ_getD hjQ, ← hdropQ, List.take_append_drop] at h1
      have h2 : spl ≤ get_path_length G0 (Q.drop j) w := by
        rw [← hgplS]
        exact hspl_le
      have h3 : get_path_length G0 (L.take (j + 1)) w =
          get_path_length G0 (Q.take (j + 1)) w := by
        rw [hroot_eqQ, hjM]
      rw [h3, h1]
      omega
    · show M ≤ lcpLen Q ((L.take (j + 1)).dropLast ++ spp)
      have hc22 : (L.take (j + 1)).dropLast ++ spp = Q.take j ++ spp := by
        rw [hdropLast, htakej]
      have hsppHeadQ : spp.head? = some (Q.getD j 0) := by
        rw [hspurQ]
        exact hsppProps.1.1.1
      have htakec : (Q.take j ++ spp).take M = Q.take M := by
        rw [List.take_append_eq_append_take]
        have hlenQtj : (Q.take j).length = j := by
          rw [List.length_take]
          omega
        rw [hlenQtj, List.take_take, show min M j = j from by omega,
          show M - j = 1 from by omega, take_one_of_head? hsppHeadQ,
          ← take_succ_getD hjQ, hjM]
      have hlenc : M ≤ (Q.take j ++ spp).length := by
        have hl := congrArg List.length htakec
        rw [List.length_take, List.length_take] at hl
        omega
      rw [hc22]
      exact le_lcpLen_of_take_eq (by omega) hlenc htakec.symm

/-! ## The heap only grows during a spur scan -/

theorem getD_append_off {A B : List Node} {i : ℕ} (d : Node) (h : A.length ≤ i) :
    (A ++ B).getD i d = B.getD (i - A.length) d := by
  rw [List.getD_eq_getElem?_getD, List.getD_eq_getElem?_getD, List.getElem?_append_right h]

theorem getD_zero_head? {l : List Node} {x : Node} (h : l.head? = some x) :
    l.getD 0 0 = x := by
  cases l with
  | nil => exact Option.noConfusion h
  | cons a l2 => simpa using h

theorem spurIteration_B_mono {w : String} {t : Node} {ps : List (List Node)} {L : List Node}
    {G : Graph} {cnt : ℕ} {B : List Cand} {j : ℕ} {G' : Graph} {cnt' : ℕ} {B' : List Cand}
    (h : spurIteration w t ps L (G, cnt, B) j = .ok (G', cnt', B')) :
    ∀ c ∈ B, c ∈ B' := by
  cases hfold : List.foldlM (sharedStep j (L.take (j + 1))) (G, ([] : List EdgeRec)) ps with
  | error e =>
      rw [spurIteration_eval_err hfold] at h
      exact Except.noConfusion h
  | ok st1 =>
      obtain ⟨G1, removed1⟩ := st1
      rcases hst2 : (L.take (j + 1)).dropLast.foldl removeNodeEdges (G1, removed1) with
        ⟨G2, removed2⟩
      cases hdij : single_source_dijkstra G2 (L.getD j 0) t w with
      | none =>
          rw [spurIteration_eval_none hfold hst2 hdij] at h
          have h3 : B = B' := congrArg (fun x => x.2.2) (Except.ok.inj h)
          intro c hc
          exact h3 ▸ hc
      | some r =>
          obtain ⟨spl, spp⟩ := r
          rw [spurIteration_eval_some hfold hst2 hdij] at h
          by_cases hE : spp.isEmpty
          · rw [if_pos hE] at h
            have h3 : B = B' := congrArg (fun x => x.2.2) (Except.ok.inj h)
            intro c hc
            exact h3 ▸ hc
          · rw [if_neg hE] at h
            have h3 : B ++ [(get_path_length (G2.add_edges_from removed2)
                (L.take (j + 1)) w + spl, cnt, (L.take (j + 1)).dropLast ++ spp)] = B' :=
              congrArg (fun x => x.2.2) (Except.ok.inj h)
            intro c hc
            exact h3 ▸ List.mem_append_left _ hc

theorem foldlM_spurIteration_B_mono {w : String} {t : Node} {ps : List (List Node)}
    {L : List Node} :
    ∀ {js : List ℕ} {G : Graph} {cnt : ℕ} {B : List Cand} {G' : Graph} {cnt' : ℕ}
      {B' : List Cand},
      List.foldlM (spurIteration w t ps L) (G, cnt, B) js = .ok (G', cnt', B') →
      ∀ c ∈ B, c ∈ B'
  | [], G, cnt, B, G', cnt', B', h => by
      have h3 : B = B' := congrArg (fun x => x.2.2) (Except.ok.inj h)
      intro c hc
      exact h3 ▸ hc
  | j :: js, G, cnt, B, G', cnt', B', h => by
      rw [List.foldlM_cons] at h
      cases hstep : spurIteration w t ps L (G, cnt, B) j with
      | error e =>
          rw [hstep] at h
          have h' : (Except.error e : Except Err (Graph × ℕ × List Cand)) =
            .ok (G', cnt', B') := h
          exact Except.noConfusion h'
      | ok st1 =>
          obtain ⟨Ga, cnta, Ba⟩ := st1
          rw [hstep, ok_bind] at h
          intro c hc
          exact foldlM_spurIteration_B_mono h c (spurIteration_B_mono hstep c hc)

/-! ## The whole scan keeps a witness for any missing loopless path -/

theorem scan_witness {G0 : Graph} {s t : Node} {w : String} {ps : List (List Node)}
    {L Q : List Node} {M : ℕ} (hWF : G0.WF)
    (hps_good : ∀ p ∈ ps, GoodPath G0 s t p)
    (hLmem : L ∈ ps) (hQ : GoodPath G0 s t Q) (hQnot : Q ∉ ps)
    (hmax : ∀ p ∈ ps, lcpLen Q p ≤ M) (hML : M = lcpLen Q L) :
    ∀ (js : List ℕ), (∀ j2 ∈ js, j2 < L.length - 1) → (M - 1) ∈ js →
      ∀ (cnt : ℕ) (B : List Cand),
      ∃ cnt2 B2, List.foldlM (spurIteration w t ps L) (G0, cnt, B) js = .ok (G0, cnt2, B2) ∧
        ∃ c ∈ B2, c.1 ≤ get_path_length G0 Q w ∧ M ≤ lcpLen Q c.2.2
  | [], _, hin, _, _ => absurd hin (by simp)
  | j :: js, hjs, hin, cnt, B => by
      have hL : GoodPath G0 s t L := hps_good L hLmem
      have hps_last : ∀ cp ∈ ps, cp.getLast? = some t := fun cp hcp => (hps_good cp hcp).1.2.1
      have hM1 : 1 ≤ M := by
        rw [hML]
        exact one_le_lcpLen_of_head hQ.1.1 hL.1.1
      by_cases hjeq : j = M - 1
      · obtain ⟨cnt1, B1, hstep, c, hcB1, hc1, hc2⟩ :=
          spurIteration_witness hWF hps_good hLmem hQ hQnot hmax hML
            (show j + 1 = M from by omega) cnt B
        rw [List.foldlM_cons, hstep, ok_bind]
        obtain ⟨cnt2, B2, hrest, _⟩ := scan_full hWF hL hps_last js
          (fun q hq => hjs q (by simp [hq])) cnt1 B1
        exact ⟨cnt2, B2, hrest, c, foldlM_spurIteration_B_mono hrest c hcB1, hc1, hc2⟩
      · have hin' : M - 1 ∈ js := by
          rcases List.mem_cons.mp hin with h1 | h1
          · exact absurd h1.symm hjeq
          · exact h1
        obtain ⟨cnt1, B1, hstep, _⟩ :=
          spurIteration_full hWF hL (hjs j (by simp)) hps_last cnt B
        rw [List.foldlM_cons, hstep, ok_bind]
        exact scan_witness hWF hps_good hLmem hQ hQnot hmax hML js
          (fun q hq => hjs q (by simp [hq])) hin' cnt1 B1

/-! ## Every candidate pushed by a spur iteration is new -/

theorem spurIteration_full2 {G0 : Graph} {s t : Node} {w : String} {ps : List (List Node)}
    {L : List Node} {j : ℕ} (hWF : G0.WF) (hps_good : ∀ p ∈ ps, GoodPath G0 s t p)
    (hL : GoodPath G0 s t L) (hj : j < L.length - 1)
    (cnt : ℕ) (B : List Cand) :
    ∃ cnt2 B2, spurIteration w t ps L (G0, cnt, B) j = .ok (G0, cnt2, B2) ∧
      ∀ c ∈ B2, c ∈ B ∨ (CandOk G0 s t w c ∧ c.2.2 ∉ ps) := by
  have hps_last : ∀ cp ∈ ps, cp.getLast? = some t := fun cp hcp => (hps_good cp hcp).1.2.1
  have hLne : L ≠ [] := by
    intro h
    rw [h] at hL
    exact Option.noConfusion hL.1.1
  have hjl : j < L.length := by
    have := List.length_pos.mpr hLne
    omega
  have hspur_ne : L.getD j 0 ≠ t := spur_ne_target hL.2 hL.1.2.1 hj
  obtain ⟨⟨G1, removed1⟩, hfold⟩ :=
    foldlM_sharedStep_ok hjl hspur_ne ps hps_last (G0, ([] : List EdgeRec))
  rcases hst2 : (L.take (j + 1)).dropLast.foldl removeNodeEdges (G1, removed1) with
    ⟨G2, removed2⟩
  have hres2 : restores G0 G2 removed2 := by
    have h := foldl_removeNodeEdges_restores hWF ((L.take (j + 1)).dropLast)
      (G1, removed1) (foldlM_sharedStep_restores ps (restores_init hWF) hfold)
    rw [hst2] at h
    exact h
  have hG3 : G2.add_edges_from removed2 = G0 := hres2.1
  cases hdij : single_source_dijkstra G2 (L.getD j 0) t w with
  | none =>
      refine ⟨cnt, B, ?_, fun c hc => Or.inl hc⟩
      rw [spurIteration_eval_none hfold hst2 hdij, hG3]
  | some r =>
      obtain ⟨spl, spp⟩ := r
      by_cases hE : spp.isEmpty
      · refine ⟨cnt, B, ?_, fun c hc => Or.inl hc⟩
        rw [spurIteration_eval_some hfold hst2 hdij, if_pos hE, hG3]
      · have hcand := spur_candidate_good hWF hL hj hfold hst2 hdij
        have hsppProps := sssd_some_props hdij
        have hfresh : (L.take (j + 1)).dropLast ++ spp ∉ ps := by
          intro hmem
          have hsppne : spp ≠ [] := by
            intro h0
            rw [h0] at hsppProps
            exact Option.noConfusion hsppProps.1.1.1
          have hdropLast : (L.take (j + 1)).dropLast = L.take j := by
            rw [take_succ_getD hjl, List.dropLast_concat]
          have hdlen : ((L.take (j + 1)).dropLast).length = j := by
            rw [hdropLast, List.length_take]
            omega
          have hsppHead : spp.head? = some (L.getD j 0) := hsppProps.1.1.1
          have hcplen : ((L.take (j + 1)).dropLast ++ spp).length > j := by
            rw [List.length_append, hdlen]
            have := List.length_pos.mpr hsppne
            omega
          have hroot : L.take (j + 1) = ((L.take (j + 1)).dropLast ++ spp).take (j + 1) := by
            rw [List.take_append_eq_append_take, hdlen,
              show j + 1 - j = 1 from by omega,
              List.take_of_length_le (show ((L.take (j + 1)).dropLast).length ≤ j + 1 from by
                rw [hdlen]; omega),
              take_one_of_head? hsppHead, hdropLast, ← take_succ_getD hjl]
          have hrem := foldlM_sharedStep_removes hfold
            ((L.take (j + 1)).dropLast ++ spp) hmem hcplen hroot
          have hrem2 : G2.adj (((L.take (j + 1)).dropLast ++ spp).getD j 0)
              (((L.take (j + 1)).dropLast ++ spp).getD (j + 1) 0) = none := by
            have h := foldl_removeNodeEdges_none_mono ((L.take (j + 1)).dropLast)
              (G1, removed1) hrem
            rw [hst2] at h
            exact h
          have hg1 : ((L.take (j + 1)).dropLast ++ spp).getD j 0 = spp.getD 0 0 := by
            rw [getD_append_off 0 (le_of_eq hdlen), hdlen, show j - j = 0 from by omega]
          have hg2 : ((L.take (j + 1)).dropLast ++ spp).getD (j + 1) 0 = spp.getD 1 0 := by
            rw [getD_append_off 0 (show ((L.take (j + 1)).dropLast).length ≤ j + 1 from by
                rw [hdlen]; omega),
              hdlen, show j + 1 - j = 1 from by omega]
          have hspplen : 2 ≤ spp.length := by
            rcases spp with _ | ⟨a, _ | ⟨b, rest⟩⟩
            · exact absurd rfl hsppne
            · exfalso
              have ha1 : a = L.getD j 0 := by simpa using hsppHead
              have ha2 : a = t := by simpa using hsppProps.1.1.2.1
              exact hspur_ne (ha1 ▸ ha2)
            · simp only [List.length_cons]
              omega
          have hedge : spp.getD 1 0 ∈ G2.successors (spp.getD 0 0) :=
            chain'_getD_of hsppProps.1.1.2.2 (show 0 + 1 < spp.length from by omega)
          have hsome := (mem_successors.mp hedge).2
          rw [hg1, hg2] at hrem2
          rw [hrem2] at hsome
          exact absurd hsome (by simp)
        refine ⟨cnt + 1, B ++ [(get_path_length G0 (L.take (j + 1)) w + spl, cnt,
            (L.take (j + 1)).dropLast ++ spp)], ?_, ?_⟩
        · rw [spurIteration_eval_some hfold hst2 hdij, if_neg hE, hG3]
        · intro c hc
          rcases List.mem_append.mp hc with h1 | h2
          · exact Or.inl h1
          · have hc2 : c = (get_path_length G0 (L.take (j + 1)) w + spl, cnt,
                (L.take (j + 1)).dropLast ++ spp) := by simpa using h2
            rw [hc2]
            exact Or.inr ⟨⟨hcand.1, hcand.2.symm⟩, hfresh⟩

theorem scan_full2 {G0 : Graph} {s t : Node} {w : String} {ps : List (List Node)}
    {L : List Node} (hWF : G0.WF) (hps_good : ∀ p ∈ ps, GoodPath G0 s t p)
    (hL : GoodPath G0 s t L) :
    ∀ (js : List ℕ), (∀ j ∈ js, j < L.length - 1) → ∀ (cnt : ℕ) (B : List Cand),
      ∃ cnt2 B2, List.foldlM (spurIteration w t ps L) (G0, cnt, B) js = .ok (G0, cnt2, B2) ∧
        ∀ c ∈ B2, c ∈ B ∨ (CandOk G0 s t w c ∧ c.2.2 ∉ ps)
  | [], _, cnt, B => ⟨cnt, B, rfl, fun c hc => Or.inl hc⟩
  | j :: js, hjs, cnt, B => by
      rw [List.foldlM_cons]
      obtain ⟨cnt1, B1, hstep, hB1⟩ :=
        spurIteration_full2 hWF hps_good hL (hjs j (by simp)) cnt B
      rw [hstep, ok_bind]
      obtain ⟨cnt2, B2, hrest, hB2⟩ :=
        scan_full2 hWF hps_good hL js (fun q hq => hjs q (by simp [hq])) cnt1 B1
      refine ⟨cnt2, B2, hrest, ?_⟩
      intro c hc
      rcases hB2 c hc with h1 | h2
      · exact hB1 c h1
      · exact Or.inr h2

/-! ## The ordering invariant is maintained by the outer loop -/

theorem yenLoop_ord {G0 : Graph} {s t : Node} {w : String} (hWF : G0.WF) :
    ∀ (fuel : ℕ) (st : YState), StInv G0 s t w st → OrdInv G0 s t w st →
      ∃ st2 : YState, yenLoop w t fuel st = .ok st2 ∧
        List.Chain' (fun a b => a ≤ b) st2.lengths
  | 0, st, _, hord => ⟨st, rfl, hord.1⟩
  | fuel + 1, st, hinv, hord => by
      obtain ⟨hG, hne, hfa, hgood, hB⟩ := hinv
      obtain ⟨hchain, hheap, hopt, hwit⟩ := hord
      have hLmem : st.paths.getLastD [] ∈ st.paths := getLastD_mem [] hne
      have hL : GoodPath G0 s t (st.paths.getLastD []) := hgood _ hLmem
      obtain ⟨cnt2, B2, hscan, hB2⟩ := scan_full2 hWF hgood hL
        (List.range ((st.paths.getLastD []).length - 1))
        (fun j hj => List.mem_range.mp hj) st.cnt st.B
      have hscan2 : List.foldlM (spurIteration w t st.paths (st.paths.getLastD []))
          (st.G, st.cnt, st.B) (List.range ((st.paths.getLastD []).length - 1)) =
          .ok (G0, cnt2, B2) := by rw [hG]; exact hscan
      have hBall : ∀ c ∈ B2, CandOk G0 s t w c := by
        intro c hc
        rcases hB2 c hc with h1 | h2
        · exact hB c h1
        · exact h2.1
      have hBlb : ∀ c ∈ B2, st.lengths.getLastD 0 ≤ c.1 := by
        intro c hc
        rcases hB2 c hc with h1 | h2
        · exact hheap c h1
        · rw [h2.1.2]
          exact hopt c.2.2 h2.1.1 h2.2
      have hfullwit : ∀ Q, GoodPath G0 s t Q → Q ∉ st.paths →
          ∃ c ∈ B2, c.1 ≤ get_path_length G0 Q w ∧
            maxLcp Q st.paths ≤ lcpLen Q c.2.2 := by
        intro Q hQ hQnot
        rcases hwit Q hQ hQnot with ⟨c, hcB, hc1, hc2⟩ | hlast
        · exact ⟨c, foldlM_spurIteration_B_mono hscan c hcB, hc1, hc2⟩
        · have hmax2 : ∀ p ∈ st.paths, lcpLen Q p ≤ maxLcp Q st.paths := fun p hp =>
            lcpLen_le_maxLcp hp
          have hM1 : 1 ≤ maxLcp Q st.paths := by
            rw [← hlast]
            exact one_le_lcpLen_of_head hQ.1.1 hL.1.1
          have hQL : Q ≠ st.paths.getLastD [] := fun h => hQnot (h ▸ hLmem)
          have hlt := (lcpLen_lt_of_good hQ hL hQL).2
          have hMlt : maxLcp Q st.paths < (st.paths.getLastD []).length := by
            rw [← hlast]
            exact hlt
          obtain ⟨cnt2', B2', hscan', c, hcB', hc1, hc2⟩ :=
            scan_witness hWF hgood hLmem hQ hQnot hmax2 hlast.symm
              (List.range ((st.paths.getLastD []).length - 1))
              (fun j2 hj2 => List.mem_range.mp hj2)
              (List.mem_range.mpr (by omega))
              st.cnt st.B
          have hBB : B2' = B2 := by
            rw [hscan] at hscan'
            exact (congrArg (fun x => x.2.2) (Except.ok.inj hscan')).symm
          exact ⟨c, hBB ▸ hcB', hc1, hc2⟩
      rw [yenLoop, hscan2]
      rw [show ((Except.ok (G0, cnt2, B2) : Except Err (Graph × ℕ × List Cand)) >>=
          fun r => match r with
          | (G, cnt, B) =>
            match popSmallest B with
            | none => Except.ok ⟨G, st.lengths, st.paths, cnt, B⟩
            | some ((l, _, p), B3) =>
                yenLoop w t fuel ⟨G, st.lengths ++ [l], st.paths ++ [p], cnt, B3⟩) =
          (match popSmallest B2 with
            | none => Except.ok ⟨G0, st.lengths, st.paths, cnt2, B2⟩
            | some ((l, _, p), B3) =>
                yenLoop w t fuel ⟨G0, st.lengths ++ [l], st.paths ++ [p], cnt2, B3⟩) from rfl]
      cases hpop : popSmallest B2 with
      | none => exact ⟨⟨G0, st.lengths, st.paths, cnt2, B2⟩, rfl, hchain⟩
      | some pr =>
          obtain ⟨⟨l, cpop, p⟩, B3⟩ := pr
          have hpopmem := (popSmallest_sub hpop).1
          have hcpok : CandOk G0 s t w (l, cpop, p) := hBall _ hpopmem
          have hlmin := popSmallest_min hpop
          have hllb : st.lengths.getLastD 0 ≤ l := hBlb _ hpopmem
          have hB3 : ∀ x ∈ B3, CandOk G0 s t w x := fun x hx =>
            hBall x ((popSmallest_sub hpop).2 x hx)
          have hsingle : List.Forall₂ (fun l2 p2 => l2 = get_path_length G0 p2 w) [l] [p] :=
            List.Forall₂.cons hcpok.2 List.Forall₂.nil
          have hinv2 : StInv G0 s t w ⟨G0, st.lengths ++ [l], st.paths ++ [p], cnt2, B3⟩ := by
            refine ⟨rfl, by simp, List.rel_append hfa hsingle, ?_, hB3⟩
            intro q hq
            rcases List.mem_append.mp hq with h1 | h2
            · exact hgood q h1
            · rw [show q = p from by simpa using h2]
              exact hcpok.1
          have hlengthsne : st.lengths ≠ [] := by
            intro h0
            have hl := List.Forall₂.length_eq hfa
            rw [h0, List.length_nil] at hl
            exact hne (List.length_eq_zero.mp hl.symm)
          have hlastlen : st.lengths.getLast? = some (st.lengths.getLastD 0) := by
            rw [List.getLast?_eq_getLast_of_ne_nil hlengthsne, List.getLastD_eq_getLast?,
              List.getLast?_eq_getLast_of_ne_nil hlengthsne]
            rfl
          have hchain2 : List.Chain' (fun a b => a ≤ b) (st.lengths ++ [l]) := by
            rw [List.chain'_append]
            refine ⟨hchain, by simp, ?_⟩
            intro x hx y hy
            have hx2 : st.lengths.getLastD 0 = x := by
              rw [List.getLastD_eq_getLast?, (by simpa using hx : st.lengths.getLast? = some x)]
              rfl
            have hy2 : l = y := by simpa using hy
            rw [← hx2, ← hy2]
            exact hllb
          have hlastD2 : (st.lengths ++ [l]).getLastD 0 = l := by simp
          have hlastP2 : (st.paths ++ [p]).getLastD [] = p := by simp
          have hheap2 : ∀ c ∈ B3, (st.lengths ++ [l]).getLastD 0 ≤ c.1 := by
            intro c hc
            rw [hlastD2]
            exact hlmin c ((popSmallest_sub hpop).2 c hc)
          have hopt2 : ∀ Q, GoodPath G0 s t Q → Q ∉ st.paths ++ [p] →
              (st.lengths ++ [l]).getLastD 0 ≤ get_path_length G0 Q w := by
            intro Q hQ hQnot
            rw [hlastD2]
            have hQnot1 : Q ∉ st.paths := fun h => hQnot (List.mem_append_left _ h)
            obtain ⟨c, hcB, hc1, _⟩ := hfullwit Q hQ hQnot1
            exact le_trans (hlmin c hcB) hc1
          have hwit2 : ∀ Q, GoodPath G0 s t Q → Q ∉ st.paths ++ [p] →
              (∃ c ∈ B3, c.1 ≤ get_path_length G0 Q w ∧
                maxLcp Q (st.paths ++ [p]) ≤ lcpLen Q c.2.2) ∨
              lcpLen Q ((st.paths ++ [p]).getLastD []) = maxLcp Q (st.paths ++ [p]) := by
            intro Q hQ hQnot
            have hQnot1 : Q ∉ st.paths := fun h => hQnot (List.mem_append_left _ h)
            have hmaxapp : maxLcp Q (st.paths ++ [p]) =
                max (maxLcp Q st.paths) (lcpLen Q p) := maxLcp_concat Q p st.paths
            obtain ⟨c, hcB, hc1, hc2⟩ := hfullwit Q hQ hQnot1
            by_cases hcase : lcpLen Q p ≤ maxLcp Q st.paths
            · have hM' : maxLcp Q (st.paths ++ [p]) = maxLcp Q st.paths := by
                rw [hmaxapp, max_eq_left hcase]
              by_cases hcpop : c = (l, cpop, p)
              · right
                rw [hlastP2, hM']
                have hc2' : maxLcp Q st.paths ≤ lcpLen Q p := by
                  rw [hcpop] at hc2
                  exact hc2
                omega
              · left
                refine ⟨c, popSmallest_ne_mem hpop c hcB hcpop, hc1, ?_⟩
                rw [hM']
                exact hc2
            · right
              rw [hlastP2, hmaxapp, max_eq_right (by omega)]
          have hord2 : OrdInv G0 s t w ⟨G0, st.lengths ++ [l], st.paths ++ [p], cnt2, B3⟩ :=
            ⟨hchain2, hheap2, hopt2, hwit2⟩
          exact yenLoop_ord hWF fuel _ hinv2 hord2

theorem T3_WF : T3.WF := by
  refine ⟨by decide, ?_, ?_⟩
  · intro u v h
    simp only [T3] at h ⊢
    split at h
    · rename_i hc
      rcases hc with ⟨rfl, rfl⟩ | ⟨rfl, rfl⟩ | ⟨rfl, rfl⟩ | ⟨rfl, rfl⟩ | ⟨rfl, rfl⟩ |
        ⟨rfl, rfl⟩ <;> simp
    · simp at h
  · intro _ u v
    simp only [T3]
    split_ifs <;> first | rfl | tauto

/-! ## Top-level ordering of the returned lengths -/

theorem ksp_ord {G : Graph} {s t : Node} {k : ℤ} {w : String} {l0 : ℕ} {p0 : List Node}
    (hWF : G.WF) (hne : s ≠ t) (hd : single_source_dijkstra G s t w = some (l0, p0)) :
    ∃ st2 : YState, k_shortest_paths G s t k w = .ok ((st2.lengths, st2.paths), st2.G) ∧
      List.Chain' (fun a b => a ≤ b) st2.lengths := by
  have hp0 := sssd_some_props hd
  have hinv0 : StInv G s t w ⟨G, [l0], [p0], 0, []⟩ := by
    refine ⟨rfl, by simp, List.Forall₂.cons hp0.2 List.Forall₂.nil, ?_, by simp⟩
    intro q hq
    rw [show q = p0 from by simpa using hq]
    exact hp0.1
  have hord0 : OrdInv G s t w ⟨G, [l0], [p0], 0, []⟩ := by
    refine ⟨by simp, by simp, ?_, ?_⟩
    · intro Q hQ _
      show ([l0] : List ℕ).getLastD 0 ≤ get_path_length G Q w
      rw [show ([l0] : List ℕ).getLastD 0 = l0 from rfl]
      exact sssd_min hd hQ
    · intro Q _ _
      right
      show lcpLen Q (([p0] : List (List Node)).getLastD []) = maxLcp Q [p0]
      rw [show ([p0] : List (List Node)).getLastD [] = p0 from rfl,
        show maxLcp Q [p0] = max (lcpLen Q p0) (maxLcp Q []) from rfl,
        show maxLcp Q ([] : List (List Node)) = 0 from rfl]
      simp
  obtain ⟨st2, hrun, hchain⟩ := yenLoop_ord hWF (k - 1).toNat _ hinv0 hord0
  refine ⟨st2, ?_, hchain⟩
  unfold k_shortest_paths
  rw [if_neg hne, hd]
  show (yenLoop w t (k - 1).toNat ⟨G, [l0], [p0], 0, []⟩ >>= fun st =>
    (Except.ok ((st.lengths, st.paths), st.G) :
      Except Err ((List ℕ × List (List Node)) × Graph))) = _
  rw [hrun, ok_bind]

/-- Claim C3: for every normal return, the returned `lengths` list is
non-decreasing by index: `lengths[i] ≤ lengths[i+1]` for every valid
index `i`. -/
theorem C3_lengths_nondecreasing (G : Graph) (s t : Node) (k : ℤ) (w : String)
    (ls : List ℕ) (ps : List (List Node)) (G2 : Graph) (hWF : G.WF)
    (hok : k_shortest_paths G s t k w = .ok ((ls, ps), G2)) :
    ∀ i, i + 1 < ls.length → ls.getD i 0 ≤ ls.getD (i + 1) 0 := by
  have hchain : List.Chain' (fun a b => a ≤ b) ls := by
    by_cases hst : s = t
    · subst hst
      obtain ⟨hls, _⟩ := ksp_eq_of_source_eq_target hok
      rw [hls]
      simp
    · cases hd : single_source_dijkstra G s t w with
      | none =>
          rw [ksp_error_of_none hst hd] at hok
          exact Except.noConfusion hok
      | some pr =>
          obtain ⟨l0, p0⟩ := pr
          obtain ⟨st2, hrun, hchain2⟩ := ksp_ord (k := k) hWF hst hd
          obtain ⟨hls, _⟩ := ksp_st_eq hrun hok
          rw [← hls]
          exact hchain2
  intro i hi
  exact chain'_getD_of hchain hi

theorem C3_lengths_nondecreasing_witness :
    ∃ G2, k_shortest_paths T3 0 2 2 "weight" = .ok (([1, 2], [[0, 2], [0, 1, 2]]), G2) ∧
      ∀ i, i + 1 < ([1, 2] : List ℕ).length →
        ([1, 2] : List ℕ).getD i 0 ≤ ([1, 2] : List ℕ).getD (i + 1) 0 :=
  ⟨_, rfl, C3_lengths_nondecreasing T3 0 2 2 "weight" [1, 2] [[0, 2], [0, 1, 2]] _ T3_WF rfl⟩
set_option maxHeartbeats 4000000 in
/-- Claim C6: on the 5-node complete graph with unit weights,
`k_shortest_paths(G, 0, 4, 4)` returns lengths `[1, 2, 2, 2]` and paths
`[[0,4], [0,1,4], [0,2,4], [0,3,4]]`; and the function accepts undirected
graphs as well as directed ones, skipping the predecessor (in-edge)
exclusion exactly when the graph is undirected. -/
theorem C6_example_run :
    kspLists K5 0 4 4 "weight" =
      some ([1, 2, 2, 2], [[0, 4], [0, 1, 4], [0, 2, 4], [0, 3, 4]]) ∧
    ∀ (st : Graph × List EdgeRec) (node : Node), st.1.directed = false →
      removeNodeEdges st node = removeOutEdges st.1 st.2 node := by
  constructor
  · decide
  · intro st node h
    rw [removeNodeEdges]
    simp only [Graph.is_directed, directed_removeOutEdges, h]
    simp

theorem C6_example_run_witness :
    kspLists K5 0 4 4 "weight" =
      some ([1, 2, 2, 2], [[0, 4], [0, 1, 4], [0, 2, 4], [0, 3, 4]]) ∧
    removeNodeEdges (D2, []) 0 = removeOutEdges D2 [] 0 :=
  ⟨C6_example_run.1, C6_example_run.2 (D2, []) 0 rfl⟩
